import Mathlib

/-!
Verification of the pagination and query-normalization engine of the
cervmongo repository (files cervmongo/main.py and cervmongo/models.py).

The Python code is shallowly embedded: Python strings are Lean strings
(operated on through their character lists), Python dicts that the engine
inspects become association lists, BSON values become the inductive type
BVal, MongoDB collections become lists of documents, and the MongoDB query
operators that the engine emits are evaluated by an executable filter
semantics.  External collaborators (the bson ObjectId codec, the datetime
isoformat serializer and the dateutil parser) are modelled by explicit
injective serializers whose round-trip behaviour mirrors the real
libraries: ObjectId values are naturals rendered as 24-character
zero-padded hexadecimal, datetime values are naturals rendered in decimal
(standing in for the separator-free, order-preserving ISO-8601 rendering),
and the parsers are their inverses, failing on malformed text exactly
where the real constructors raise.
-/

namespace Cervmongo

/-! ## Python string primitives -/

/-- Split of a character list on a separator, mirroring the semantics of
the Python method str.split with a one-character separator: the empty
string yields one empty chunk, and a leading or trailing separator yields
an empty chunk at the corresponding end. -/
def splitChars (sep : Char) : List Char → List (List Char)
  | [] => [[]]
  | c :: cs =>
      match splitChars sep cs with
      | [] => [[]]
      | h :: t => if c = sep then [] :: h :: t else (c :: h) :: t

/-- Split of a Lean string on a separator character, through its
character list, mirroring Python str.split. -/
def pySplit (s : String) (sep : Char) : List String :=
  (splitChars sep s.data).map (fun l => String.mk l)

/-- Substring membership check over character lists, mirroring the Python
expression pat in s. -/
def containsChars (hay pat : List Char) : Bool :=
  match hay with
  | [] => pat.isEmpty
  | _ :: rest => pat.isPrefixOf hay || containsChars rest pat

/-- Substring membership for strings, mirroring the Python operator in. -/
def pyContainsSub (s pat : String) : Bool :=
  containsChars s.data pat.data

/-- Membership of one character in a string, mirroring Python in for a
one-character pattern. -/
def pyContainsChar (s : String) (c : Char) : Bool :=
  s.data.contains c

/-! ## Numeral codecs modelling the external serializers

ObjectId values (bson) have a canonical 24-character lowercase hexadecimal
string form and their constructor rejects any string that is not exactly
24 hexadecimal characters.  Datetime values are modelled as naturals whose
iso rendering is their decimal numeral; the dateutil parser is modelled as
the decimal parser, failing on any non-numeral text. -/

/-- Character of a single digit value, for bases up to 16. -/
def digitToChar : Nat → Char
  | 0 => '0' | 1 => '1' | 2 => '2' | 3 => '3' | 4 => '4'
  | 5 => '5' | 6 => '6' | 7 => '7' | 8 => '8' | 9 => '9'
  | 10 => 'a' | 11 => 'b' | 12 => 'c' | 13 => 'd' | 14 => 'e'
  | 15 => 'f' | _ => 'x'

/-- Digit value of a character, for bases up to 16. -/
def charToDigit (c : Char) : Option Nat :=
  if c = '0' then some 0 else if c = '1' then some 1 else if c = '2' then some 2
  else if c = '3' then some 3 else if c = '4' then some 4 else if c = '5' then some 5
  else if c = '6' then some 6 else if c = '7' then some 7 else if c = '8' then some 8
  else if c = '9' then some 9 else if c = 'a' then some 10 else if c = 'b' then some 11
  else if c = 'c' then some 12 else if c = 'd' then some 13 else if c = 'e' then some 14
  else if c = 'f' then some 15 else none

/-- Little-endian digits of a natural, computed with explicit fuel so the
definition reduces inside the kernel. -/
def digitsLE (b : Nat) : Nat → Nat → List Nat
  | _, 0 => []
  | n, fuel + 1 => if n = 0 then [] else n % b :: digitsLE b (n / b) fuel

/-- Value of a little-endian digit list. -/
def valueLE (b : Nat) (l : List Nat) : Nat :=
  l.foldr (fun d acc => acc * b + d) 0

/-- Big-endian character numeral of a natural in base b, mirroring the
canonical textual form produced by the external serializers (decimal str
for naturals, lowercase hex for ObjectId bodies). -/
def natToCharsBE (b n : Nat) : List Char :=
  if n = 0 then ['0'] else ((digitsLE b n n).reverse).map digitToChar

/-- Parse of a base-b numeral given as a character list: every character
must be a digit below the base and the text must be nonempty. -/
def parseNatBase (b : Nat) (cs : List Char) : Option Nat :=
  if cs.isEmpty then none
  else if cs.all (fun c => match charToDigit c with | some d => decide (d < b) | none => false) then
    some (cs.foldl (fun acc c => acc * b + (charToDigit c).getD 0) 0)
  else none

/-! ## BSON values and documents

Documents handled by the pagination engine are modelled as flat
association lists from field name to value; the engine only ever reads
the identifier field and the sort field.  The value type covers the
BSON scalars the engine manipulates.  Cross-type comparison follows the
canonical BSON ordering of types (Null, numbers, strings, ObjectId,
Date), and the MongoDB range operators only match values in the same
type bracket as their operand, which the evaluation below mirrors. -/

inductive BVal where
  | vNull
  | vInt (n : Int)
  | vStr (s : String)
  | vOid (n : Nat)
  | vDate (t : Nat)
  | vRegex (pat : String)
deriving DecidableEq

/-- Canonical BSON cross-type rank of a value. -/
def BVal.rank : BVal → Nat
  | .vNull => 0
  | .vInt _ => 1
  | .vStr _ => 2
  | .vOid _ => 3
  | .vDate _ => 4
  | .vRegex _ => 5

/-- Strict comparison of two values of the same constructor. -/
def BVal.ltSame : BVal → BVal → Bool
  | .vInt a, .vInt b => a < b
  | .vStr a, .vStr b => decide (a < b)
  | .vOid a, .vOid b => a < b
  | .vDate a, .vDate b => a < b
  | .vRegex a, .vRegex b => decide (a < b)
  | _, _ => false

/-- Strict BSON order: by type rank, then within the type. -/
def bsonLt (a b : BVal) : Bool :=
  if a.rank = b.rank then BVal.ltSame a b else a.rank < b.rank

/-- Reflexive BSON order. -/
def bsonLe (a b : BVal) : Bool :=
  bsonLt a b || a == b

/-- Document: association list from field name to value; the first
binding of a name wins, as in a Python dict. -/
abbrev Doc := List (String × BVal)

/-- Field lookup in a document. -/
def docField (d : Doc) (f : String) : Option BVal :=
  (d.find? (fun p => p.1 = f)).map (fun p => p.2)

/-- Caller-supplied filters are modelled semantically, as predicates on
documents: the engine treats the base filter as opaque and only wraps
it. -/
abbrev Filter := Doc → Bool

/-! ## Stable sorting

MongoDB sorts by the requested key only; the relative order of equal
keys is unspecified, and this model fixes one possible behaviour, the
stable order.  Python list sorting and the builtin sorted are stable by
specification.  The insertion sort below is stable because an element
is placed before the first existing element it compares le to. -/

def insertLe (le : α → α → Bool) (a : α) : List α → List α
  | [] => [a]
  | b :: bs => if le a b then a :: b :: bs else b :: insertLe le a bs

def sortLe (le : α → α → Bool) : List α → List α
  | [] => []
  | a :: as => insertLe le a (sortLe le as)

/-! ## MongoDB sort and range-operator semantics -/

/-- Value of the sort field used for ordering; a missing field sorts as
null, as in MongoDB. -/
def sortFieldVal (key : String) (d : Doc) : BVal :=
  (docField d key).getD .vNull

/-- Comparator realizing sort on one key with direction 1 or -1. -/
def docLe (key : String) (dir : Int) (d1 d2 : Doc) : Bool :=
  if dir = -1 then bsonLe (sortFieldVal key d2) (sortFieldVal key d1)
  else bsonLe (sortFieldVal key d1) (sortFieldVal key d2)

/-- Result order of a find with sort on one key. -/
def mongoSort (key : String) (dir : Int) (docs : List Doc) : List Doc :=
  sortLe (docLe key dir) docs

/-- Range operator appearing in the conditions the engine emits. -/
inductive RangeOp where
  | rlt
  | rgt
deriving DecidableEq

/-- Single field constraint of the form field, operator, operand. -/
structure FieldCond where
  field : String
  op : RangeOp
  value : BVal
deriving DecidableEq

/-- Condition document: a conjunction of field constraints, one Mongo
condition object. -/
abbrev CondDoc := List FieldCond

/-- Disjunction group appended to the and-list of the composed query. -/
structure OrClause where
  disjuncts : List CondDoc
deriving DecidableEq

/-- Composed query of the limit branch of GET: the caller filter wrapped
in an and-list together with the appended disjunction groups. -/
structure LimitQuery where
  base : Filter
  clauses : List OrClause

/-- Evaluation of one field constraint on a document.  MongoDB range
operators only match fields whose value lies in the same type bracket
as the operand; a missing field matches nothing. -/
def evalCond (d : Doc) (c : FieldCond) : Bool :=
  match docField d c.field with
  | none => false
  | some v =>
      (v.rank == c.value.rank) &&
        (match c.op with
          | .rlt => bsonLt v c.value
          | .rgt => bsonLt c.value v)

/-- Evaluation of the composed query on a document. -/
def evalLimitQuery (lq : LimitQuery) (d : Doc) : Bool :=
  lq.base d && lq.clauses.all (fun cl => cl.disjuncts.any (fun cd => cd.all (evalCond d)))

/-! ## Boundary tokens

The source builds tokens from a template: an underscore followed by the
identifier text when the sort key is the identifier field, and otherwise
the isoformat text of the sort value, an underscore, and the identifier
text.  Decoding splits on underscores, requires exactly two chunks,
feeds the second to the ObjectId constructor and, for a non-identifier
sort key, the first to the date parser. -/

/-- Truthiness of an optional Python string: None and the empty string
are falsy. -/
def strTruthy : Option String → Bool
  | none => false
  | some s => !s.isEmpty

/-- Truthiness of an optional Python int: None and zero are falsy. -/
def intTruthy : Option Int → Bool
  | none => false
  | some n => n != 0

/-- Decimal text of a natural, modelling the isoformat rendering of the
datetime library: injective, order preserving and free of underscores. -/
def isoStr (t : Nat) : String :=
  String.mk (natToCharsBE 10 t)

/-- Canonical 24-character zero-padded lowercase hexadecimal form of an
ObjectId, modelling str of a bson ObjectId. -/
def oidStr (n : Nat) : String :=
  String.mk (List.replicate (24 - (natToCharsBE 16 n).length) '0' ++ natToCharsBE 16 n)

/-- Model of the ObjectId constructor on strings: accepts exactly 24
hexadecimal characters, rejects anything else. -/
def parseOidStr (s : String) : Option Nat :=
  if s.data.length = 24 then parseNatBase 16 s.data else none

/-- Model of the external date parser applied to boundary-token chunks:
accepts the numerals produced by isoStr and rejects other text, in
particular the text None and the empty chunk, on which the real parser
raises. -/
def dateParseStr (s : String) : Option Nat :=
  parseNatBase 10 s.data

/-- Python str of a BVal, used for the identifier slot of the token
template. -/
def bvalPyStr : BVal → String
  | .vNull => "None"
  | .vInt i => if i < 0 then "-" ++ String.mk (natToCharsBE 10 i.natAbs) else String.mk (natToCharsBE 10 i.natAbs)
  | .vStr s => s
  | .vOid n => oidStr n
  | .vDate t => isoStr t
  | .vRegex p => p

/-- Errors of the embedded engine: failed two-chunk unpacking of a
token, ObjectId constructor failure, date parser failure, a missing
identifier field on a returned document, the page assertion, and fuel
exhaustion of the pagination driver. -/
inductive PQErr where
  | splitUnpack
  | invalidId
  | dateParse
  | keyMissing
  | pageAssert
  | fuelout
deriving DecidableEq

/-- Composition of the effective query in the limit branch of GET
(main.py lines 569 to 592).  The caller query is wrapped in a fresh
and-list; a truthy after token appends one disjunction group whose
first disjunct compares the sort key with the decoded ObjectId under
lt and whose second disjunct, present only when the sort key is not
the identifier field, conjoins key lt decoded-date with identifier lt
decoded ObjectId; a truthy before token mirrors this with gt.  When
both tokens are truthy the after branch wins and the before token is
ignored. -/
def composeLimitQuery (q : Filter) (key : String) (after before : Option String) :
    Except PQErr LimitQuery :=
  if strTruthy after || strTruthy before then
    if strTruthy after then
      match pySplit ((after.getD "")) '_' with
      | [sv, idv] =>
          match parseOidStr idv with
          | none => .error .invalidId
          | some oid =>
              if key ≠ "_id" then
                match dateParseStr sv with
                | none => .error .dateParse
                | some dv =>
                    .ok ⟨q, [⟨[[⟨key, .rlt, .vOid oid⟩],
                               [⟨key, .rlt, .vDate dv⟩, ⟨"_id", .rlt, .vOid oid⟩]]⟩]⟩
              else
                .ok ⟨q, [⟨[[⟨key, .rlt, .vOid oid⟩]]⟩]⟩
      | _ => .error .splitUnpack
    else
      match pySplit ((before.getD "")) '_' with
      | [sv, idv] =>
          match parseOidStr idv with
          | none => .error .invalidId
          | some oid =>
              if key ≠ "_id" then
                match dateParseStr sv with
                | none => .error .dateParse
                | some dv =>
                    .ok ⟨q, [⟨[[⟨key, .rgt, .vOid oid⟩],
                               [⟨key, .rgt, .vDate dv⟩, ⟨"_id", .rgt, .vOid oid⟩]]⟩]⟩
              else
                .ok ⟨q, [⟨[[⟨key, .rgt, .vOid oid⟩]]⟩]⟩
      | _ => .error .splitUnpack
  else
    .ok ⟨q, []⟩

/-! ## GET branches used by the pagination engine -/

/-- Unlimited count, used for the total (GET with count and no limit):
count of the documents matching the caller query. -/
def countDocs (coll : List Doc) (q : Filter) : Nat :=
  (coll.filter q).length

/-- Page query of GET: with a truthy limit, the limit branch composes
the effective query, sorts on the key and takes limit documents; with
limit zero (falsy) GET falls through to the plain find branch, which
ignores the tokens and returns everything sorted. -/
def getPageQuery (coll : List Doc) (q : Filter) (limit : Nat) (key : String)
    (dir : Int) (after before : Option String) : Except PQErr (List Doc) :=
  if limit ≠ 0 then
    match composeLimitQuery q key after before with
    | .error e => .error e
    | .ok lq => .ok ((mongoSort key dir (coll.filter (evalLimitQuery lq))).take limit)
  else
    .ok (mongoSort key dir (coll.filter q))

/-- Count query of GET under a limit: with a truthy limit the composed
query is counted with the limit applied; with limit zero the first
count branch of GET fires and returns the unlimited count of the
caller query, ignoring the tokens. -/
def getCountQuery (coll : List Doc) (q : Filter) (limit : Nat) (key : String)
    (after before : Option String) : Except PQErr Nat :=
  if limit ≠ 0 then
    match composeLimitQuery q key after before with
    | .error e => .error e
    | .ok lq => .ok (min limit ((coll.filter (evalLimitQuery lq)).length))
  else
    .ok (countDocs coll q)

/-- Offset query of GET (the perpage branch): sort, skip the product of
page minus one and perpage, take perpage; with perpage zero GET falls
through to the plain find branch. -/
def getOffsetQuery (coll : List Doc) (q : Filter) (perpage : Nat) (key : String)
    (dir : Int) (page : Int) : List Doc :=
  if perpage ≠ 0 then
    ((mongoSort key dir (coll.filter q)).drop (((page - 1).toNat) * perpage)).take perpage
  else
    mongoSort key dir (coll.filter q)

/-! ## PAGINATED_QUERY -/

/-- Response envelope of PAGINATED_QUERY restricted to the fields the
claims concern.  The cursors object of the cursor and time strategies
carries the two tokens; the offset strategy carries the two page
numbers; hasNext and hasPrevious record whether the next and previous
links of the envelope are non-null, which the source decides by the
truthiness of the computed tokens in every strategy. -/
structure PQResponse where
  data : List Doc
  method : String
  total : Nat
  count : Nat
  limit : Nat
  afterCursor : Option String
  beforeCursor : Option String
  prevPage : Option Int
  nextPage : Option Int
  hasNext : Bool
  hasPrevious : Bool

/-- Token template applied to one returned document (main.py lines 257
to 281): reading the identifier field raises if absent; the sort-field
isoformat extraction is wrapped in a bare except and degrades to the
text None. -/
def cursorTemplate (sort : String) (d : Doc) : Except PQErr String :=
  match docField d "_id" with
  | none => .error .keyMissing
  | some idv =>
      if sort = "_id" then .ok ("_" ++ bvalPyStr idv)
      else
        .ok ((match docField d sort with
              | some (.vDate t) => isoStr t
              | _ => "None") ++ "_" ++ bvalPyStr idv)

/-- Candidate tokens from a nonempty result page: a new after token from
the last document when the page is full, and a new before token from
the first document when the caller supplied a truthy token. -/
def computeCandidates (sort : String) (limit : Nat) (after before : Option String)
    (results : List Doc) : Except PQErr (Option String × Option String) :=
  match results.getLast?, results.head? with
  | some lastDoc, some headDoc =>
      match cursorTemplate sort lastDoc with
      | .error e => .error e
      | .ok tokLast =>
          match cursorTemplate sort headDoc with
          | .error e => .error e
          | .ok tokFirst =>
              .ok (if results.length = limit then some tokLast else none,
                   if strTruthy after || strTruthy before then some tokFirst else none)
  | _, _ => .ok (none, none)

/-- Lookahead verification (main.py lines 283 to 293): only in the
cursor and time strategies, and only when the caller supplied a token;
a truthy before argument re-counts with the candidate before token and
nulls it on a zero count, otherwise a truthy after argument re-counts
with the candidate after token and nulls it on a zero count. -/
def applyLookahead (coll : List Doc) (q : Filter) (limit : Nat) (sort : String)
    (after before : Option String) (method : String)
    (cand : Option String × Option String) : Except PQErr (Option String × Option String) :=
  if method = "cursor" || method = "time" then
    if strTruthy before then
      match getCountQuery coll q limit sort none cand.2 with
      | .error e => .error e
      | .ok c => .ok (cand.1, if c = 0 then none else cand.2)
    else if strTruthy after then
      match getCountQuery coll q limit sort cand.1 none with
      | .error e => .error e
      | .ok c => .ok (if c = 0 then none else cand.1, cand.2)
    else .ok cand
  else .ok cand

/-- Assembly of the response envelope (main.py lines 297 to 348). -/
def assembleResponse (method : String) (total limit : Nat) (page : Option Int)
    (results : List Doc) (newAfter newBefore : Option String) : PQResponse :=
  let cursorMode := method = "cursor" || method = "time"
  { data := results
    method := method
    total := total
    count := results.length
    limit := limit
    afterCursor := if cursorMode then newAfter else none
    beforeCursor := if cursorMode then newBefore else none
    prevPage :=
      if cursorMode then none
      else match page with
        | some p => if p > 1 then some (p - 1) else none
        | none => none
    nextPage :=
      if cursorMode then none
      else match page with
        | some p => if p * (limit : Int) ≤ (total : Int) then some (p + 1) else none
        | none => none
    hasNext := strTruthy newAfter
    hasPrevious := strTruthy newBefore }

/-- Token computation, lookahead and assembly shared by every strategy
(main.py lines 257 to 348). -/
def finishPQ (coll : List Doc) (q : Filter) (limit : Nat) (sort : String)
    (after before : Option String) (page : Option Int) (method : String)
    (total : Nat) (results : List Doc) : Except PQErr PQResponse :=
  if results.isEmpty then
    .ok (assembleResponse method total limit page results none none)
  else
    match computeCandidates sort limit after before results with
    | .error e => .error e
    | .ok cand =>
        match applyLookahead coll q limit sort after before method cand with
        | .error e => .error e
        | .ok nab => .ok (assembleResponse method total limit page results nab.1 nab.2)

/-- Embedding of SyncIOClient.PAGINATED_QUERY (main.py lines 211 to
350).  A falsy page argument, None or zero, selects the cursor strategy
when the sort key is the identifier field and the time strategy
otherwise; a truthy page selects the offset strategy after asserting
that the page is at least one. -/
def PAGINATED_QUERY (coll : List Doc) (limit : Nat) (sort : String)
    (after before : Option String) (page : Option Int) (ordering : Int)
    (query : Filter) : Except PQErr PQResponse :=
  let total := countDocs coll query
  if intTruthy page = false then
    let method := if sort = "_id" then "cursor" else "time"
    match getPageQuery coll query limit sort ordering after before with
    | .error e => .error e
    | .ok results => finishPQ coll query limit sort after before page method total results
  else
    if page.getD 0 < 1 then .error .pageAssert
    else finishPQ coll query limit sort after before page "offset" total
           (getOffsetQuery coll query limit sort ordering (page.getD 0))

/-- Forward pagination driver of the claimed concatenation property:
repeatedly call PAGINATED_QUERY, follow the after cursor while the next
link is non-null, and concatenate the data of the pages. -/
def paginateAll (coll : List Doc) (limit : Nat) (sort : String) (q : Filter) :
    Nat → Option String → Except PQErr (List Doc)
  | 0, _ => .error .fuelout
  | fuel + 1, after =>
      match PAGINATED_QUERY coll limit sort after none none (-1) q with
      | .error e => .error e
      | .ok resp =>
          if resp.hasNext then
            match resp.afterCursor with
            | some tok =>
                match paginateAll coll limit sort q fuel (some tok) with
                | .error e => .error e
                | .ok rest => .ok (resp.data ++ rest)
            | none => .ok resp.data
          else .ok resp.data

/-- Transcription of the reference ordering stated by the specification
for the unpaginated query: sort key descending with ties broken by
identifier descending. -/
def specOrderedQuery (coll : List Doc) (q : Filter) (key : String) : List Doc :=
  sortLe (fun d1 d2 =>
    if sortFieldVal key d1 = sortFieldVal key d2 then
      bsonLe (sortFieldVal "_id" d2) (sortFieldVal "_id" d1)
    else bsonLt (sortFieldVal key d2) (sortFieldVal key d1)) (coll.filter q)

/-- Transcription of the range predicate the specification prescribes
for an after boundary with sort value sv and identifier oid: sort key
strictly below sv, or, when the sort key is not the identifier field,
sort key equal to sv with identifier strictly below oid. -/
def specAfterMatch (key : String) (sv : BVal) (oid : Nat) (d : Doc) : Bool :=
  let firstDisjunct :=
    match docField d key with
    | some v => (v.rank == sv.rank) && bsonLt v sv
    | none => false
  if key = "_id" then firstDisjunct
  else
    firstDisjunct ||
      ((docField d key == some sv) &&
        (match docField d "_id" with
          | some iv => (iv.rank == (BVal.vOid oid).rank) && bsonLt iv (BVal.vOid oid)
          | none => false))

/-! ## Identifier classification

Embedding of SyncIOClient._process_record_id_type (main.py lines 131 to
151).  The input is an arbitrary Python value: a string, an ObjectId, a
mapping, or anything else. -/

inductive PyInput where
  | istr (s : String)
  | ioid (n : Nat)
  | idict (fields : List (String × BVal))
  | iother (v : BVal)
deriving DecidableEq

/-- Normalized value produced by classification: the record unchanged,
the in-pair combining a parsed value with the raw string, or the result
of the extended-JSON round trip of a marker mapping. -/
inductive Classified where
  | unchanged (v : PyInput)
  | inPair (v : BVal) (raw : String)
  | parsedJson (v : BVal)
deriving DecidableEq

/-- Classification error: the external JSON loader raising on malformed
extended notation. -/
inductive ClsErr where
  | jsonError
deriving DecidableEq

/-- Model of bson json_util.loads restricted to the document shapes the
classifier feeds it: the text of a document containing exactly one $oid
key with a canonical identifier string parses to that ObjectId, and any
other text makes the loader raise, as the real loader does on malformed
extended notation. -/
def jsonLoadStr (s : String) : Option BVal :=
  match s.data with
  | '\x7b' :: '"' :: '$' :: 'o' :: 'i' :: 'd' :: '"' :: ':' :: ' ' :: '"' :: rest =>
      if rest.drop 24 = ['"', '\x7d'] then
        match parseNatBase 16 (rest.take 24) with
        | some n => some (.vOid n)
        | none => none
      else none
  | _ => none

/-- Model of the json_util dump and load round trip applied to a mapping
carrying an extended-notation marker key: an $oid entry holding a
canonical identifier string becomes that ObjectId, otherwise a $regex
entry holding a string pattern becomes a regex value, and any other
marker payload makes the loader raise. -/
def jsonRoundDict (fields : List (String × BVal)) : Option BVal :=
  if fields.any (fun p => p.1 = "$oid") then
    match (fields.find? (fun p => p.1 = "$oid")).map (fun p => p.2) with
    | some (BVal.vStr h) => (parseOidStr h).map .vOid
    | _ => none
  else
    match (fields.find? (fun p => p.1 = "$regex")).map (fun p => p.2) with
    | some (BVal.vStr p) => some (.vRegex p)
    | _ => none

/-- Embedding of _process_record_id_type.  The one flag is set to true
before any parsing for every string input; a string containing the $oid
marker goes through the JSON loader into an in-pair; any other string
is offered to the ObjectId constructor inside a bare try whose failure
is passed over, leaving the record unchanged but the flag still true;
an ObjectId input is returned unchanged with a true flag; a mapping is
round-tripped through the JSON codec when it carries an $oid or $regex
key and is otherwise returned unchanged with a false flag, as is any
other value. -/
def processRecordIdType : PyInput → Except ClsErr (Classified × Bool)
  | .istr s =>
      if pyContainsSub s "$oid" then
        match jsonLoadStr s with
        | some v => .ok (.inPair v s, true)
        | none => .error .jsonError
      else
        match parseOidStr s with
        | some oid => .ok (.inPair (.vOid oid) s, true)
        | none => .ok (.unchanged (.istr s), true)
  | .ioid n => .ok (.unchanged (.ioid n), true)
  | .idict fields =>
      if (fields.any (fun p => p.1 = "$oid")) || (fields.any (fun p => p.1 = "$regex")) then
        match jsonRoundDict fields with
        | some v => .ok (.parsedJson v, true)
        | none => .error .jsonError
      else .ok (.unchanged (.idict fields), false)
  | .iother v => .ok (.unchanged (.iother v), false)

/-! ## Lazy result set: the sequence-backed distinct

Embedding of MongoListResponse.distinct in sequence mode (models.py
lines 275 to 312).  Nested Python values are modelled by a non-nested
inductive: a mapping is a chain of dcons entries ending in dnil and a
list is a chain of acons entries ending in anil, so that equality is
decidable by derivation. -/

inductive DVal where
  | atom (v : BVal)
  | dnil
  | dcons (key : String) (val : DVal) (rest : DVal)
  | anil
  | acons (val : DVal) (rest : DVal)
deriving DecidableEq

/-- Key membership in a mapping chain. -/
def dictHasKey : DVal → String → Bool
  | .dcons k _ r, f => k = f || dictHasKey r f
  | _, _ => false

/-- Lookup in a mapping chain, first binding wins. -/
def dictGet? : DVal → String → Option DVal
  | .dcons k v r, f => if k = f then some v else dictGet? r f
  | _, _ => none

/-- Value membership in a list chain. -/
def listMem : DVal → DVal → Bool
  | .acons v r, x => v = x || listMem r x
  | _, _ => false

/-- Index of the first occurrence of a value in a list chain. -/
def listIndexOfFrom : DVal → DVal → Nat → Option Nat
  | .acons v r, x, i => if v = x then some i else listIndexOfFrom r x (i + 1)
  | _, _, _ => none

/-- Positional access in a list chain. -/
def listGet? : DVal → Nat → Option DVal
  | .acons v _, 0 => some v
  | .acons _ r, n + 1 => listGet? r n
  | _, _ => none

/-- Python membership test, value in item: key membership for mappings,
value membership for lists, substring for strings; a non-container atom
raises, which the model signals with none. -/
def pyInOp (item : DVal) (f : String) : Option Bool :=
  match item with
  | .atom (.vStr s) => some (pyContainsSub s f)
  | .atom _ => none
  | .dnil => some false
  | .dcons k v r => some (dictHasKey (.dcons k v r) f)
  | .anil => some false
  | .acons v r => some (listMem (.acons v r) (.atom (.vStr f)))

/-- Python string-keyed item access after a successful membership test:
only mappings support it; indexing a list or a string with a string
raises, which the model signals with none. -/
def pyGetItemStr (item : DVal) (f : String) : Option DVal :=
  match item with
  | .dcons k v r => dictGet? (.dcons k v r) f
  | _ => none

/-- Python str.isdigit. -/
def pyIsDigit (s : String) : Bool :=
  !s.isEmpty && s.data.all Char.isDigit

/-- Decimal value of a digit-only string. -/
def strToNatDec (s : String) : Nat :=
  (parseNatBase 10 s.data).getD 0

/-- Walk of the dotted-path components over one document, translated
from the inner loop of distinct.  A digit component other than the last
indexes a list, and both the failed indexing and a non-list receiver
are caught by the surrounding try and skip to the next component with
the same item; a named component other than the last moves into the
mapping when the key is present and otherwise skips to the next
component with the same item; the membership test itself can raise, and
that exception escapes.  The final component adds the found value, or,
for a digit component, the position of that number in the list, and a
failed search is caught and contributes nothing. -/
def walkDoc : List String → DVal → Option (List DVal)
  | [], _ => some []
  | [f], item =>
      if pyIsDigit f then
        match item with
        | .acons v r =>
            match listIndexOfFrom (.acons v r) (.atom (.vInt (strToNatDec f))) 0 with
            | some i => some [.atom (.vInt (Int.ofNat i))]
            | none => some []
        | _ => some []
      else
        match pyInOp item f with
        | none => none
        | some false => some []
        | some true =>
            match pyGetItemStr item f with
            | none => none
            | some v => some [v]
  | f :: rest, item =>
      if pyIsDigit f then
        match item with
        | .acons v r =>
            match listGet? (.acons v r) (strToNatDec f) with
            | some nxt => walkDoc rest nxt
            | none => walkDoc rest item
        | _ => walkDoc rest item
      else
        match pyInOp item f with
        | none => none
        | some true =>
            match pyGetItemStr item f with
            | none => none
            | some nxt => walkDoc rest nxt
        | some false => walkDoc rest item

/-- Hashability of a value: only atoms are hashable; adding a mapping
or a list to a set raises. -/
def dvalHashable : DVal → Bool
  | .atom _ => true
  | _ => false

/-- Set insertion preserving first-insertion order; none on an
unhashable value. -/
def addToSet (acc : List DVal) (v : DVal) : Option (List DVal) :=
  if dvalHashable v then some (if v ∈ acc then acc else acc ++ [v]) else none

/-- Mapping-node check used by the plain-field hypotheses. -/
def isDictNode : DVal → Bool
  | .dnil => true
  | .dcons _ _ _ => true
  | _ => false

/-- Integer-atom check used by the sortability hypotheses. -/
def isIntAtom : DVal → Bool
  | .atom (.vInt _) => true
  | _ => false

/-- Comparability of two atom payloads under the Python order. -/
def bvalComp : BVal → BVal → Bool
  | .vInt _, .vInt _ => true
  | .vStr _, .vStr _ => true
  | .vOid _, .vOid _ => true
  | .vDate _, .vDate _ => true
  | _, _ => false

/-- Comparability of two values under the Python order: homogeneous
atoms of int, string, ObjectId or datetime type compare, anything else
raises. -/
def dvalComp : DVal → DVal → Bool
  | .atom x, .atom y => bvalComp x y
  | _, _ => false

/-- Order on comparable atoms. -/
def dvalLeB (a b : DVal) : Bool :=
  match a, b with
  | .atom x, .atom y => bsonLe x y
  | _, _ => false

/-- Model of the Python builtin sorted with the reverse flag: when every
pair of collected values is comparable the result is the stable order,
ascending or descending; otherwise sorted raises, the bare except of
distinct catches it, and the model signals none. -/
def pySortedDVal (rev : Bool) (vals : List DVal) : Option (List DVal) :=
  if vals.all (fun a => vals.all (fun b => dvalComp a b)) then
    some (sortLe (fun a b => if rev then dvalLeB b a else dvalLeB a b) vals)
  else none

/-- Embedding of the sequence-mode branch of MongoListResponse.distinct.
A dotted field walks every document with walkDoc collecting a set; an
undotted field collects the field values of the documents containing
the field, with duplicates retained; either way the collected values
are sorted ascending, or descending when the current sort direction is
minus one, and any escaped exception yields the empty list. -/
def seqDistinct (docs : List DVal) (field : String) (sortDir : Int) : List DVal :=
  let rev := sortDir == -1
  let computed : Option (List DVal) :=
    if pyContainsChar field '.' then
      (docs.foldlM (fun acc item =>
          (walkDoc (pySplit field '.') item).bind (fun vs => vs.foldlM addToSet acc)) [])
        |>.bind (pySortedDVal rev)
    else
      (docs.foldlM (fun acc item =>
          (pyInOp item field).bind (fun c =>
            if c then (pyGetItemStr item field).map (fun v => acc ++ [v]) else some acc)) [])
        |>.bind (pySortedDVal rev)
  computed.getD []

/-! ## Object-level model of the query construction

The frame claim is about Python object identity: the limit branch of
GET builds the compound predicate in a freshly allocated and-wrapper
around the caller mapping instead of writing into that mapping.  To
state this, the construction of main.py lines 569 to 592 is replayed on
an explicit heap of Python objects: addresses are indices into a list
of objects, allocation appends, and the only mutating operation the
source performs, list append, rewrites one address in place.  The
caller mapping lives at an arbitrary address of an arbitrary initial
heap, and the theorem shows every initial address, hence in particular
the caller mapping and everything it references, unchanged. -/

inductive PVal where
  | prim (v : BVal)
  | ref (a : Nat)
deriving DecidableEq

inductive PObj where
  | pdict (entries : List (String × PVal))
  | plist (items : List PVal)
deriving DecidableEq

abbrev Heap := List PObj

/-- In-place append to the list object at an address. -/
def heapListAppend (h : Heap) (a : Nat) (v : PVal) : Heap :=
  match h.get? a with
  | some (.plist items) => h.set a (.plist (items ++ [v]))
  | _ => h

/-- Replay on the object heap of the range construction shared by the
after and before branches of the limit branch of GET: the two branches
of the source are textually identical up to the comparison operator and
the token, which are therefore parameters here.  The construction
allocates the comparison dict, the first disjunct dict, the or-list and
the or-dict, appends a reference to the or-dict to the and-list at
andAddr and, for a non-identifier sort key with a parseable date chunk,
allocates the tie-break dicts and appends a reference to the last of
them to the or-list.  A parse failure raises, leaving the heap as built
so far. -/
def composeRangeOnHeap (h1 : Heap) (andAddr : Nat) (key op tok : String) : Heap :=
  match pySplit tok '_' with
  | [sv, idv] =>
      match parseOidStr idv with
      | none => h1
      | some oid =>
          if key ≠ "_id" then
            match dateParseStr sv with
            | none =>
                heapListAppend
                  (h1 ++ [PObj.pdict [(op, PVal.prim (.vOid oid))],
                          PObj.pdict [(key, PVal.ref h1.length)],
                          PObj.plist [PVal.ref (h1.length + 1)],
                          PObj.pdict [("$or", PVal.ref (h1.length + 2))]])
                  andAddr (PVal.ref (h1.length + 3))
            | some dv =>
                heapListAppend
                  (heapListAppend
                    (h1 ++ [PObj.pdict [(op, PVal.prim (.vOid oid))],
                            PObj.pdict [(key, PVal.ref h1.length)],
                            PObj.plist [PVal.ref (h1.length + 1)],
                            PObj.pdict [("$or", PVal.ref (h1.length + 2))]])
                    andAddr (PVal.ref (h1.length + 3))
                   ++ [PObj.pdict [(op, PVal.prim (.vDate dv))],
                       PObj.pdict [(op, PVal.prim (.vOid oid))],
                       PObj.pdict [(key, PVal.ref (h1.length + 4)),
                                   ("_id", PVal.ref (h1.length + 5))]])
                  (h1.length + 2) (PVal.ref (h1.length + 6))
          else
            heapListAppend
              (h1 ++ [PObj.pdict [(op, PVal.prim (.vOid oid))],
                      PObj.pdict [(key, PVal.ref h1.length)],
                      PObj.plist [PVal.ref (h1.length + 1)],
                      PObj.pdict [("$or", PVal.ref (h1.length + 2))]])
              andAddr (PVal.ref (h1.length + 3))
  | _ => h1

/-- Replay of the query construction of the limit branch of GET on the
object heap (main.py lines 569 to 592).  With a truthy token the local
variable query is rebound to a fresh dict containing a fresh and-list
whose sole element is a reference to the caller mapping; every
subsequent write is an append to a freshly allocated object.  The
caller mapping at qaddr is only ever referenced, never written. -/
def composeOnHeap (h : Heap) (qaddr : Nat) (key : String)
    (after before : Option String) : Heap :=
  if strTruthy after || strTruthy before then
    if strTruthy after then
      composeRangeOnHeap
        (h ++ [PObj.plist [PVal.ref qaddr], PObj.pdict [("$and", PVal.ref h.length)]])
        h.length key "$lt" (after.getD "")
    else
      composeRangeOnHeap
        (h ++ [PObj.plist [PVal.ref qaddr], PObj.pdict [("$and", PVal.ref h.length)]])
        h.length key "$gt" (before.getD "")
  else h

/-- Invariant used to chase the heap construction: the heap extends the
initial one and agrees with it at the observed address. -/
def FramesAt (h : Heap) (i : Nat) (g : Heap) : Prop :=
  h.length ≤ g.length ∧ g.get? i = h.get? i

/-! ## Token codec as used by the engine

Encoding is the template of PAGINATED_QUERY lines 257 to 281, applied
to a sort value and an identifier; decoding is the token-consuming
prefix of the limit branch of GET, lines 574 to 592: split on
underscores, unpack exactly two chunks, feed the second chunk to the
ObjectId constructor, and for a non-identifier sort key feed the first
chunk to the date parser. -/

/-- Token produced by the template for a sort value v and identifier
oid: an underscore followed by the identifier text when the sort key is
the identifier field, otherwise the iso text of the sort value, an
underscore and the identifier text. -/
def encodeToken (key : String) (v : Nat) (oid : Nat) : String :=
  if key = "_id" then "_" ++ oidStr oid else isoStr v ++ "_" ++ oidStr oid

/-- Decode of a boundary token against a sort key, returning the parsed
sort value, absent when the sort key is the identifier field, and the
identifier. -/
def decodeToken (tok : String) (key : String) : Except PQErr (Option Nat × Nat) :=
  match pySplit tok '_' with
  | [sv, idv] =>
      match parseOidStr idv with
      | none => .error .invalidId
      | some oid =>
          if key ≠ "_id" then
            match dateParseStr sv with
            | none => .error .dateParse
            | some dv => .ok (some dv, oid)
          else .ok (none, oid)
  | _ => .error .splitUnpack

/-! ## Concrete collections used by the refuting evaluations -/

/-- Filter matching every document, the empty caller query. -/
def qAll : Filter := fun _ => true

def c1doc1 : Doc := [("_id", .vOid 3), ("created", .vDate 5)]

def c1doc2 : Doc := [("_id", .vOid 2), ("created", .vDate 5)]

def c1doc3 : Doc := [("_id", .vOid 1), ("created", .vDate 5)]

def c1coll : List Doc := [c1doc1, c1doc2, c1doc3]

def c6doc1 : Doc := [("_id", .vOid 1)]

def c6doc2 : Doc := [("_id", .vOid 2)]

def c6coll : List Doc := [c6doc1, c6doc2]

/-- Response of the offset-mode run on the two-document collection with
limit two and page one, used by the C6 and C8 witnesses. -/
def c6resp : PQResponse :=
  { data := [c6doc2, c6doc1]
    method := "offset"
    total := 2
    count := 2
    limit := 2
    afterCursor := none
    beforeCursor := none
    prevPage := none
    nextPage := some 2
    hasNext := true
    hasPrevious := false }

def c5wdoc1 : Doc := [("_id", .vOid 1)]

def c5wdoc2 : Doc := [("_id", .vOid 2)]

def c5wdoc3 : Doc := [("_id", .vOid 3)]

def c5wcoll : List Doc := [c5wdoc1, c5wdoc2, c5wdoc3]

/-- Response of the cursor-mode run on the three-document collection
with limit one resuming after the identifier three, used by the C5
witness. -/
def c5wresp : PQResponse :=
  { data := [c5wdoc2]
    method := "cursor"
    total := 3
    count := 1
    limit := 1
    afterCursor := some ("_" ++ oidStr 2)
    beforeCursor := some ("_" ++ oidStr 2)
    prevPage := none
    nextPage := none
    hasNext := true
    hasPrevious := true }

def c5coll : List Doc := [[("_id", .vOid 1)]]

/-! ## Order lemmas for the distinct sort -/

def c9docs : List DVal :=
  [DVal.dcons "x" (.atom (.vInt 1)) .dnil, DVal.dcons "x" (.atom (.vInt 1)) .dnil]

/-! ## Theorems -/

theorem splitChars_ne_nil (sep : Char) (l : List Char) : splitChars sep l ≠ [] := by
  cases l with
  | nil => simp [splitChars]
  | cons c cs =>
      simp only [splitChars]
      cases h : splitChars sep cs with
      | nil => simp
      | cons h t =>
          by_cases hc : c = sep <;> simp [hc]

theorem splitChars_no_sep (sep : Char) (l : List Char) (h : sep ∉ l) :
    splitChars sep l = [l] := by
  induction l with
  | nil => rfl
  | cons c cs ih =>
      simp only [List.mem_cons, not_or] at h
      simp only [splitChars, ih h.2]
      have hc : ¬ (c = sep) := fun hcc => h.1 hcc.symm
      simp [hc]

theorem splitChars_append (sep : Char) (l₁ l₂ : List Char) (h : sep ∉ l₁) :
    splitChars sep (l₁ ++ sep :: l₂) = l₁ :: splitChars sep l₂ := by
  induction l₁ with
  | nil =>
      simp only [List.nil_append, splitChars]
      cases hs : splitChars sep l₂ with
      | nil => exact absurd hs (splitChars_ne_nil sep l₂)
      | cons a t => simp
  | cons c cs ih =>
      simp only [List.mem_cons, not_or] at h
      have hc : ¬ (c = sep) := fun hcc => h.1 hcc.symm
      have key := ih h.2
      rw [List.cons_append]
      simp only [splitChars]
      rw [key]
      simp [hc]

theorem valueLE_digitsLE (b : Nat) (hb : 2 ≤ b) :
    ∀ fuel n, n ≤ fuel → valueLE b (digitsLE b n fuel) = n := by
  intro fuel
  induction fuel with
  | zero => intro n hn; interval_cases n; rfl
  | succ f ih =>
      intro n hn
      by_cases h0 : n = 0
      · subst h0; simp [digitsLE, valueLE]
      · have hdiv : n / b ≤ f := by
          have h1 : n / b < n := Nat.div_lt_self (Nat.pos_of_ne_zero h0) (by omega)
          omega
        simp only [digitsLE, h0, if_false, valueLE, List.foldr_cons]
        have := ih (n / b) hdiv
        simp only [valueLE] at this
        rw [this, Nat.mul_comm (n / b) b, Nat.div_add_mod]

theorem digitsLE_lt (b : Nat) (hb : 2 ≤ b) :
    ∀ fuel n d, d ∈ digitsLE b n fuel → d < b := by
  intro fuel
  induction fuel with
  | zero => intro n d hd; simp [digitsLE] at hd
  | succ f ih =>
      intro n d hd
      by_cases h0 : n = 0
      · subst h0; simp [digitsLE] at hd
      · simp only [digitsLE, h0, if_false, List.mem_cons] at hd
        rcases hd with h | h
        · subst h; exact Nat.mod_lt _ (by omega)
        · exact ih _ _ h

theorem digitsLE_length_le (b : Nat) (hb : 2 ≤ b) :
    ∀ fuel n, n ≤ fuel → ∀ k, n < b ^ k → (digitsLE b n fuel).length ≤ k := by
  intro fuel
  induction fuel with
  | zero =>
      intro n hn k _
      interval_cases n
      simp [digitsLE]
  | succ f ih =>
      intro n hn k hk
      by_cases h0 : n = 0
      · subst h0; simp [digitsLE]
      · cases k with
        | zero => simp at hk; omega
        | succ k =>
            have hdivf : n / b ≤ f := by
              have h1 : n / b < n := Nat.div_lt_self (Nat.pos_of_ne_zero h0) (by omega)
              omega
            have hdivk : n / b < b ^ k := by
              rw [Nat.div_lt_iff_lt_mul (by omega : 0 < b)]
              calc n < b ^ (k + 1) := hk
                _ = b ^ k * b := by ring
            simp only [digitsLE, h0, if_false, List.length_cons]
            have := ih (n / b) hdivf k hdivk
            omega

theorem charToDigit_digitToChar (d : Nat) (hd : d < 16) :
    charToDigit (digitToChar d) = some d := by
  interval_cases d <;> rfl

theorem digitToChar_ne_underscore (d : Nat) : digitToChar d ≠ '_' := by
  intro h
  unfold digitToChar at h
  split at h
  all_goals exact absurd h (by decide)

theorem natToCharsBE_no_underscore (b n : Nat) : '_' ∉ natToCharsBE b n := by
  unfold natToCharsBE
  by_cases h0 : n = 0
  · subst h0
    simp only [reduceIte, List.mem_singleton]
    decide
  · simp only [h0, if_false, List.mem_map, List.mem_reverse]
    rintro ⟨d, _, hd⟩
    exact digitToChar_ne_underscore d hd

theorem foldl_digits_value (b : Nat) (hb : b ≤ 16) (hb2 : 2 ≤ b) (l : List Nat)
    (hl : ∀ d ∈ l, d < b) (acc : Nat) :
    (l.reverse.map digitToChar).foldl (fun acc c => acc * b + (charToDigit c).getD 0) acc
      = l.foldr (fun d a => a * b + d) acc := by
  induction l generalizing acc with
  | nil => rfl
  | cons d rest ih =>
      have hd : d < b := hl d (List.mem_cons_self d rest)
      have hrest : ∀ x ∈ rest, x < b := fun x hx => hl x (List.mem_cons_of_mem d hx)
      simp only [List.reverse_cons, List.map_append, List.foldl_append, List.map_cons,
        List.map_nil, List.foldl_cons, List.foldl_nil, List.foldr_cons]
      rw [ih hrest acc, charToDigit_digitToChar d (by omega)]
      rfl

theorem parseNatBase_natToCharsBE (b n : Nat) (hb2 : 2 ≤ b) (hb : b ≤ 16) :
    parseNatBase b (natToCharsBE b n) = some n := by
  by_cases h0 : n = 0
  · subst h0
    unfold natToCharsBE parseNatBase
    simp only [if_true]
    interval_cases b <;> rfl
  · unfold natToCharsBE parseNatBase
    simp only [h0, if_false]
    have hdig : digitsLE b n n ≠ [] := by
      intro hnil
      have := valueLE_digitsLE b hb2 n n (le_refl n)
      rw [hnil] at this
      simp [valueLE] at this
      omega
    have hnonempty : ((digitsLE b n n).reverse.map digitToChar).isEmpty = false := by
      rcases hx : (digitsLE b n n).reverse.map digitToChar with _ | ⟨a, t⟩
      · exfalso
        apply hdig
        have hlen := congrArg List.length hx
        simp only [List.length_map, List.length_reverse, List.length_nil] at hlen
        exact List.length_eq_zero.mp hlen
      · rfl
    rw [hnonempty]
    simp only [Bool.false_eq_true, if_false]
    have hall : ((digitsLE b n n).reverse.map digitToChar).all
        (fun c => match charToDigit c with | some d => decide (d < b) | none => false) = true := by
      rw [List.all_eq_true]
      intro c hc
      simp only [List.mem_map, List.mem_reverse] at hc
      rcases hc with ⟨d, hdmem, rfl⟩
      have hdb : d < b := digitsLE_lt b hb2 n n d hdmem
      rw [charToDigit_digitToChar d (by omega)]
      simpa using hdb
    rw [hall]
    simp only [if_true]
    rw [foldl_digits_value b hb hb2 _ (fun d hd => digitsLE_lt b hb2 n n d hd) 0]
    have := valueLE_digitsLE b hb2 n n (le_refl n)
    simpa [valueLE] using this

theorem length_insertLe (le : α → α → Bool) (a : α) (l : List α) :
    (insertLe le a l).length = l.length + 1 := by
  induction l with
  | nil => rfl
  | cons b bs ih =>
      simp only [insertLe]
      by_cases h : le a b <;> simp [h, ih]

theorem length_sortLe (le : α → α → Bool) (l : List α) :
    (sortLe le l).length = l.length := by
  induction l with
  | nil => rfl
  | cons a as ih => simp [sortLe, length_insertLe, ih]

theorem perm_insertLe (le : α → α → Bool) (a : α) (l : List α) :
    List.Perm (insertLe le a l) (a :: l) := by
  induction l with
  | nil => exact List.Perm.refl _
  | cons b bs ih =>
      simp only [insertLe]
      by_cases h : le a b
      · simp [h]
      · simp only [h, if_false]
        exact ((ih.cons b).trans (List.Perm.swap a b bs))

theorem perm_sortLe (le : α → α → Bool) (l : List α) :
    List.Perm (sortLe le l) l := by
  induction l with
  | nil => exact List.Perm.refl _
  | cons a as ih => exact (perm_insertLe le a (sortLe le as)).trans (ih.cons a)

theorem mem_sortLe (le : α → α → Bool) (l : List α) (x : α) :
    x ∈ sortLe le l ↔ x ∈ l :=
  (perm_sortLe le l).mem_iff

theorem nodup_sortLe (le : α → α → Bool) (l : List α) (h : l.Nodup) :
    (sortLe le l).Nodup :=
  ((perm_sortLe le l).symm).nodup h

theorem mem_insertLe (le : α → α → Bool) (a : α) (l : List α) (x : α) :
    x ∈ insertLe le a l ↔ x = a ∨ x ∈ l := by
  rw [(perm_insertLe le a l).mem_iff]
  simp

theorem pairwise_insertLe (le : α → α → Bool) (P : α → Prop)
    (htotal : ∀ x y, P x → P y → le x y = true ∨ le y x = true)
    (htrans : ∀ x y z, P x → P y → P z → le x y = true → le y z = true → le x z = true)
    (a : α) (ha : P a) :
    ∀ l : List α, (∀ x ∈ l, P x) → l.Pairwise (fun x y => le x y = true) →
      (insertLe le a l).Pairwise (fun x y => le x y = true) := by
  intro l
  induction l with
  | nil => intro _ _; simp [insertLe]
  | cons b bs ih =>
      intro hP hsorted
      have hPb : P b := hP b (by simp)
      have hPbs : ∀ x ∈ bs, P x := fun x hx => hP x (by simp [hx])
      rcases List.pairwise_cons.mp hsorted with ⟨hb, hbs⟩
      simp only [insertLe]
      by_cases h : le a b = true
      · simp only [h, if_true]
        refine List.Pairwise.cons ?_ hsorted
        intro x hx
        rcases List.mem_cons.mp hx with hx | hx
        · rw [hx]; exact h
        · exact htrans a b x ha hPb (hPbs x hx) h (hb x hx)
      · simp only [h, if_false]
        refine List.Pairwise.cons ?_ (ih hPbs hbs)
        intro x hx
        rcases (mem_insertLe le a bs x).mp hx with hx | hx
        · rcases htotal a b ha hPb with hab | hba
          · exact absurd hab h
          · rw [hx]; exact hba
        · exact hb x hx

theorem pairwise_sortLe (le : α → α → Bool) (P : α → Prop)
    (htotal : ∀ x y, P x → P y → le x y = true ∨ le y x = true)
    (htrans : ∀ x y z, P x → P y → P z → le x y = true → le y z = true → le x z = true) :
    ∀ l : List α, (∀ x ∈ l, P x) →
      (sortLe le l).Pairwise (fun x y => le x y = true) := by
  intro l
  induction l with
  | nil => intro _; simp [sortLe]
  | cons a as ih =>
      intro hP
      have hPas : ∀ x ∈ as, P x := fun x hx => hP x (by simp [hx])
      have hsorted := ih hPas
      refine pairwise_insertLe le P htotal htrans a (hP a (by simp)) _ ?_ hsorted
      intro x hx
      exact hPas x ((mem_sortLe le as x).mp hx)

theorem length_heapListAppend (h : Heap) (a : Nat) (v : PVal) :
    (heapListAppend h a v).length = h.length := by
  unfold heapListAppend
  rcases hget : h.get? a with _ | o
  · rfl
  · cases o <;> simp

theorem get?_heapListAppend_ne (h : Heap) (a : Nat) (v : PVal) (i : Nat) (hne : i ≠ a) :
    (heapListAppend h a v).get? i = h.get? i := by
  unfold heapListAppend
  rcases hget : h.get? a with _ | o
  · rfl
  · cases o
    · rfl
    · exact List.get?_set_ne _ _ (fun hia => hne hia.symm)

theorem framesAt_refl (h : Heap) (i : Nat) : FramesAt h i h :=
  ⟨le_refl _, rfl⟩

theorem framesAt_append (h : Heap) (i : Nat) (hi : i < h.length) (g : Heap)
    (hg : FramesAt h i g) (tail : List PObj) : FramesAt h i (g ++ tail) := by
  refine ⟨?_, ?_⟩
  · rw [List.length_append]
    have := hg.1
    omega
  · rw [List.get?_append (by have := hg.1; omega), hg.2]

theorem framesAt_listAppend (h : Heap) (i : Nat) (hi : i < h.length) (g : Heap)
    (hg : FramesAt h i g) (a : Nat) (ha : h.length ≤ a) (v : PVal) :
    FramesAt h i (heapListAppend g a v) := by
  refine ⟨?_, ?_⟩
  · rw [length_heapListAppend]; exact hg.1
  · rw [get?_heapListAppend_ne _ _ _ _ (by omega), hg.2]

theorem composeRangeOnHeap_framesAt (h : Heap) (i : Nat) (hi : i < h.length)
    (h1 : Heap) (f1 : FramesAt h i h1) (andAddr : Nat) (ha : h.length ≤ andAddr)
    (key op tok : String) :
    FramesAt h i (composeRangeOnHeap h1 andAddr key op tok) := by
  have hlen1 := f1.1
  unfold composeRangeOnHeap
  split
  · split
    · exact f1
    · split
      · split
        · exact framesAt_listAppend h i hi _ (framesAt_append h i hi h1 f1 _) andAddr ha _
        · refine framesAt_listAppend h i hi _ ?_ (h1.length + 2) (by omega) _
          refine framesAt_append h i hi _ ?_ _
          exact framesAt_listAppend h i hi _ (framesAt_append h i hi h1 f1 _) andAddr ha _
      · exact framesAt_listAppend h i hi _ (framesAt_append h i hi h1 f1 _) andAddr ha _
  · exact f1

theorem composeOnHeap_frame (h : Heap) (qaddr : Nat) (key : String)
    (after before : Option String) (i : Nat) (hi : i < h.length) :
    (composeOnHeap h qaddr key after before).get? i = h.get? i := by
  unfold composeOnHeap
  split
  · split
    · exact (composeRangeOnHeap_framesAt h i hi _
        (framesAt_append h i hi h (framesAt_refl h i) _) h.length (le_refl _) _ _ _).2
    · exact (composeRangeOnHeap_framesAt h i hi _
        (framesAt_append h i hi h (framesAt_refl h i) _) h.length (le_refl _) _ _ _).2
  · rfl

theorem foldl_natToCharsBE (b n : Nat) (hb2 : 2 ≤ b) (hb : b ≤ 16) :
    (natToCharsBE b n).foldl (fun acc c => acc * b + (charToDigit c).getD 0) 0 = n := by
  by_cases h0 : n = 0
  · subst h0
    unfold natToCharsBE
    simp only [if_pos rfl]
    interval_cases b <;> rfl
  · unfold natToCharsBE
    simp only [h0, if_false]
    rw [foldl_digits_value b hb hb2 _ (fun d hd => digitsLE_lt b hb2 n n d hd) 0]
    have := valueLE_digitsLE b hb2 n n (le_refl n)
    simpa [valueLE] using this

theorem natToCharsBE_valid (b n : Nat) (hb2 : 2 ≤ b) (hb : b ≤ 16) :
    ∀ c ∈ natToCharsBE b n,
      (match charToDigit c with | some d => decide (d < b) | none => false) = true := by
  intro c hc
  unfold natToCharsBE at hc
  by_cases h0 : n = 0
  · subst h0
    simp only [reduceIte, List.mem_singleton] at hc
    subst hc
    show decide (0 < b) = true
    simp only [decide_eq_true_eq]
    omega
  · simp only [h0, if_false, List.mem_map, List.mem_reverse] at hc
    rcases hc with ⟨d, hdmem, rfl⟩
    have hdb : d < b := digitsLE_lt b hb2 n n d hdmem
    rw [charToDigit_digitToChar d (by omega)]
    simpa using hdb

theorem natToCharsBE_length_le (b n k : Nat) (hb2 : 2 ≤ b) (h1 : 1 ≤ k)
    (hn : n < b ^ k) : (natToCharsBE b n).length ≤ k := by
  unfold natToCharsBE
  by_cases h0 : n = 0
  · simp [h0]; omega
  · simp only [h0, if_false, List.length_map, List.length_reverse]
    exact digitsLE_length_le b hb2 n n (le_refl n) k hn

theorem foldl_pad_zeros (b : Nat) (k : Nat) (cs : List Char) :
    (List.replicate k '0' ++ cs).foldl (fun acc c => acc * b + (charToDigit c).getD 0) 0
      = cs.foldl (fun acc c => acc * b + (charToDigit c).getD 0) 0 := by
  induction k with
  | zero => rfl
  | succ m ih => simpa [List.replicate_succ, charToDigit] using ih

theorem oidStr_no_underscore (n : Nat) : '_' ∉ (oidStr n).data := by
  unfold oidStr
  intro hc
  rcases List.mem_append.mp hc with hc | hc
  · have := List.eq_of_mem_replicate hc
    simp at this
  · exact natToCharsBE_no_underscore 16 n hc

theorem isoStr_no_underscore (t : Nat) : '_' ∉ (isoStr t).data := by
  exact natToCharsBE_no_underscore 10 t

theorem parseOidStr_oidStr (n : Nat) (hn : n < 16 ^ 24) :
    parseOidStr (oidStr n) = some n := by
  have hlen : (natToCharsBE 16 n).length ≤ 24 :=
    natToCharsBE_length_le 16 n 24 (by omega) (by omega) hn
  have hlen24 : (List.replicate (24 - (natToCharsBE 16 n).length) '0'
      ++ natToCharsBE 16 n).length = 24 := by
    rw [List.length_append, List.length_replicate]
    omega
  unfold parseOidStr oidStr
  simp only [hlen24, if_pos rfl]
  unfold parseNatBase
  have hne : (List.replicate (24 - (natToCharsBE 16 n).length) '0'
      ++ natToCharsBE 16 n).isEmpty = false := by
    rcases hx : List.replicate (24 - (natToCharsBE 16 n).length) '0'
        ++ natToCharsBE 16 n with _ | ⟨a, t⟩
    · exfalso
      have := congrArg List.length hx
      rw [hlen24] at this
      simp at this
    · rfl
  rw [hne]
  simp only [Bool.false_eq_true, if_false]
  have hall : (List.replicate (24 - (natToCharsBE 16 n).length) '0'
      ++ natToCharsBE 16 n).all
      (fun c => match charToDigit c with | some d => decide (d < 16) | none => false) = true := by
    rw [List.all_eq_true]
    intro c hc
    rcases List.mem_append.mp hc with hc | hc
    · have := List.eq_of_mem_replicate hc
      subst this
      rfl
    · exact natToCharsBE_valid 16 n (by omega) (by omega) c hc
  rw [hall]
  simp only [if_true]
  rw [List.foldl_append]
  have hrep : (List.replicate (24 - (natToCharsBE 16 n).length) '0').foldl
      (fun acc c => acc * 16 + (charToDigit c).getD 0) 0 = 0 := by
    have := foldl_pad_zeros 16 (24 - (natToCharsBE 16 n).length) ([] : List Char)
    simpa using this
  rw [hrep, foldl_natToCharsBE 16 n (by omega) (by omega)]

theorem dateParseStr_isoStr (t : Nat) : dateParseStr (isoStr t) = some t := by
  unfold dateParseStr isoStr
  exact parseNatBase_natToCharsBE 10 t (by omega) (by omega)

theorem pySplit_two_chunks (l₁ l₂ : List Char) (h₁ : '_' ∉ l₁) (h₂ : '_' ∉ l₂) :
    pySplit (String.mk (l₁ ++ '_' :: l₂)) '_' = [String.mk l₁, String.mk l₂] := by
  unfold pySplit
  have : (String.mk (l₁ ++ '_' :: l₂)).data = l₁ ++ '_' :: l₂ := rfl
  rw [this, splitChars_append '_' l₁ l₂ h₁, splitChars_no_sep '_' l₂ h₂]
  rfl

theorem pySplit_concat_underscore (s₁ s₂ : String) (h₁ : '_' ∉ s₁.data) (h₂ : '_' ∉ s₂.data) :
    pySplit (s₁ ++ "_" ++ s₂) '_' = [s₁, s₂] := by
  unfold pySplit
  have hdata : (s₁ ++ "_" ++ s₂).data = s₁.data ++ '_' :: s₂.data := by
    simp [String.data_append]
  rw [hdata, splitChars_append '_' _ _ h₁, splitChars_no_sep '_' _ h₂]
  rfl

/-- Claim C3: the boundary-token codec round-trips: decoding the token
produced by encoding a sort value and an identifier, against the same
sort key, recovers the identifier, and for a non-identifier sort key
also the sort value; for the identifier sort key the token is the
underscore followed by the identifier text and no sort value is
recovered.  The identifier is bounded by the 24-hex-digit capacity of
the canonical ObjectId text. -/
theorem c3_token_roundtrip (key : String) (v oid : Nat) (hoid : oid < 16 ^ 24) :
    decodeToken (encodeToken key v oid) key =
      .ok (if key = "_id" then none else some v, oid) := by
  by_cases hkey : key = "_id"
  · subst hkey
    have hsplit : pySplit ("_" ++ oidStr oid) '_' = ["", oidStr oid] := by
      have := pySplit_concat_underscore "" (oidStr oid) (by simp) (oidStr_no_underscore oid)
      simpa using this
    unfold encodeToken decodeToken
    simp only [reduceIte, hsplit, parseOidStr_oidStr oid hoid, ne_eq, not_true_eq_false,
      if_false]
  · unfold encodeToken decodeToken
    simp only [hkey, if_false,
      pySplit_concat_underscore (isoStr v) (oidStr oid)
        (isoStr_no_underscore v) (oidStr_no_underscore oid),
      parseOidStr_oidStr oid hoid, dateParseStr_isoStr, ne_eq, not_false_eq_true, if_true]

/-- Witness for C3 at a concrete sort key, sort value and identifier. -/
theorem c3_token_roundtrip_witness :
    decodeToken (encodeToken "created" 5 2) "created" = .ok (some 5, 2) := by
  have h := c3_token_roundtrip "created" 5 2 (by norm_num)
  rw [h]
  rfl

/-- Claim C1: in time mode the concatenation property fails on the code.  On
a static three-document collection whose documents share one timestamp,
paginating forward with limit two, sort key created and the empty
filter terminates after two pages holding only the first two documents:
the third document, which the unpaginated query sorted by the sort key
and the identifier descending does contain, is never returned, because
the composed resume predicate compares the timestamp field against the
boundary ObjectId in its first disjunct and uses a strict comparison
instead of an equality in its tie-break disjunct. -/
theorem c1_time_mode_pagination_drops_documents :
    paginateAll c1coll 2 "created" qAll 5 none = .ok [c1doc1, c1doc2] ∧
    c1doc3 ∈ specOrderedQuery c1coll qAll "created" ∧
    c1doc3 ∉ [c1doc1, c1doc2] := by
  refine ⟨rfl, ?_, ?_⟩ <;> decide

/-- Claim C2: the composed resume predicate at the boundary of the C1 run.
The emitted disjunction compares the sort field created against the
boundary ObjectId in its first disjunct and conjoins two strict
comparisons in its second disjunct, instead of the claimed strict
comparison on the sort value and equality tie-break; consequently a
document carrying the boundary timestamp with a smaller identifier
fails the emitted predicate although it satisfies the predicate the
claim describes. -/
theorem c2_composed_predicate_diverges :
    (composeLimitQuery qAll "created" (some (isoStr 5 ++ "_" ++ oidStr 2)) none).map
        (fun lq => lq.clauses) =
      .ok [⟨[[⟨"created", .rlt, .vOid 2⟩],
             [⟨"created", .rlt, .vDate 5⟩, ⟨"_id", .rlt, .vOid 2⟩]]⟩] ∧
    (composeLimitQuery qAll "created" (some (isoStr 5 ++ "_" ++ oidStr 2)) none).map
        (fun lq => evalLimitQuery lq c1doc3) = .ok false ∧
    specAfterMatch "created" (.vDate 5) 2 c1doc3 = true := by
  refine ⟨?_, ?_, ?_⟩ <;> rfl

/-- Claim C10: the caller filter mapping is never mutated by the query
composition of the limit branch of GET: replaying the construction on
the object heap, every address of the initial heap, in particular the
caller mapping at qaddr and every object it references, holds the same
object afterwards, for either token and for every parse outcome; the
compound range predicate lives entirely in freshly allocated objects
wrapped around a reference to the caller mapping.  Hence one paginate
call can hand the same mapping to its total count query, its page query
and its lookahead query, and each sees it unaltered. -/
theorem c10_caller_filter_unchanged (h : Heap) (qaddr : Nat) (key : String)
    (after before : Option String) (i : Nat) (hi : i < h.length) :
    (composeOnHeap h qaddr key after before).get? i = h.get? i :=
  composeOnHeap_frame h qaddr key after before i hi

/-- Witness for C10: a one-object heap holding the caller mapping, a
time-mode after token, observed at the caller address. -/
theorem c10_caller_filter_unchanged_witness :
    (composeOnHeap [PObj.pdict [("age", PVal.prim (.vInt 30))]] 0 "created"
        (some (isoStr 5 ++ "_" ++ oidStr 2)) none).get? 0
      = some (PObj.pdict [("age", PVal.prim (.vInt 30))]) := by
  rw [c10_caller_filter_unchanged [PObj.pdict [("age", PVal.prim (.vInt 30))]] 0 "created"
    (some (isoStr 5 ++ "_" ++ oidStr 2)) none 0 (by decide)]
  rfl

/-- Claim C4 counterexample: the string hello is not a canonical identifier
encoding and contains no extended-notation fragment, yet classification
marks it a single entity: the flag is true, not false as claimed. -/
theorem c4_counterexample :
    processRecordIdType (.istr "hello") = .ok (.unchanged (.istr "hello"), true) ∧
    ∀ v : Classified, processRecordIdType (.istr "hello") ≠ .ok (v, false) := by
  refine ⟨rfl, ?_⟩
  intro v h
  rw [show processRecordIdType (.istr "hello") = .ok (.unchanged (.istr "hello"), true)
    from rfl] at h
  have heq := Except.ok.inj h
  have hbf : true = false := congrArg Prod.snd heq
  exact absurd hbf (by decide)

/-- Claim C4 amended: classification never raises and returns the record
unchanged except in the extended-notation paths, but every string is
marked a single entity.  A string free of the $oid marker yields the
flag true: a canonical identifier string is normalized to the in-pair
of its ObjectId and the raw text, and any other such string is returned
unchanged, still flagged as a single entity, the ObjectId failure being
silently passed over; an ObjectId input is returned unchanged flagged
true; a mapping without $oid and $regex keys, and any other value, are
returned unchanged flagged false. -/
theorem c4_classification_amended :
    (∀ s : String, pyContainsSub s "$oid" = false →
        processRecordIdType (.istr s) =
          .ok (match parseOidStr s with
                | some oid => (.inPair (.vOid oid) s, true)
                | none => (.unchanged (.istr s), true))) ∧
    (∀ n : Nat, processRecordIdType (.ioid n) = .ok (.unchanged (.ioid n), true)) ∧
    (∀ fields : List (String × BVal),
        (fields.any (fun p => p.1 = "$oid")) = false →
        (fields.any (fun p => p.1 = "$regex")) = false →
        processRecordIdType (.idict fields) = .ok (.unchanged (.idict fields), false)) ∧
    (∀ v : BVal, processRecordIdType (.iother v) = .ok (.unchanged (.iother v), false)) := by
  refine ⟨?_, ?_, ?_, ?_⟩
  · intro s hs
    simp only [processRecordIdType, hs, Bool.false_eq_true, if_false]
    rcases hp : parseOidStr s with _ | oid <;> rfl
  · intro n; rfl
  · intro fields h1 h2
    simp only [processRecordIdType, h1, h2, Bool.or_self, Bool.false_eq_true, if_false]
  · intro v; rfl

/-- Witness for C4 at concrete inputs: the plain string hello, an
ObjectId, a markerless mapping and a plain value. -/
theorem c4_classification_amended_witness :
    processRecordIdType (.istr "hello") = .ok (.unchanged (.istr "hello"), true) ∧
    processRecordIdType (.ioid 7) = .ok (.unchanged (.ioid 7), true) ∧
    processRecordIdType (.idict [("age", .vInt 30)]) =
      .ok (.unchanged (.idict [("age", .vInt 30)]), false) ∧
    processRecordIdType (.iother (.vInt 3)) = .ok (.unchanged (.iother (.vInt 3)), false) := by
  refine ⟨?_, ?_, ?_, ?_⟩
  · have h := c4_classification_amended.1 "hello" (by decide)
    rw [h]
    rfl
  · exact c4_classification_amended.2.1 7
  · exact c4_classification_amended.2.2.1 [("age", .vInt 30)] (by decide) (by decide)
  · exact c4_classification_amended.2.2.2 (.vInt 3)

theorem finishPQ_ok_shape (coll : List Doc) (q : Filter) (limit : Nat) (sort : String)
    (after before : Option String) (page : Option Int) (method : String) (total : Nat)
    (results : List Doc) (resp : PQResponse)
    (h : finishPQ coll q limit sort after before page method total results = .ok resp) :
    ∃ na nb, resp = assembleResponse method total limit page results na nb := by
  unfold finishPQ at h
  split at h
  · exact ⟨none, none, (Except.ok.inj h).symm⟩
  · split at h
    · simp at h
    · split at h
      · simp at h
      · rename_i cand nab hlook
        exact ⟨nab.1, nab.2, (Except.ok.inj h).symm⟩

/-- Claim C6 counterexample: with total two, limit two and page one the
product of page and limit equals the total, where the claim demands a
null next page, yet the response advertises page two. -/
theorem c6_counterexample :
    (PAGINATED_QUERY c6coll 2 "_id" none none (some 1) (-1) qAll).map
      (fun r => (r.nextPage, r.prevPage, r.total)) = .ok (some 2, none, 2) ∧
    ((1 : Int) * 2 ≥ (2 : Int)) := ⟨rfl, by decide⟩

/-- Claim C6 amended: in offset mode the next page is the successor of the
page exactly when the product of page and limit is at most the total,
hence null exactly when that product exceeds the total; the boundary
where the product equals the total still advertises a next page, whose
retrieval is empty.  The previous page is the predecessor when the page
exceeds one and null otherwise, and the reported total is the unlimited
count of the filter. -/
theorem c6_offset_pages_amended (coll : List Doc) (q : Filter) (limit : Nat)
    (ordering : Int) (sort : String) (p : Int) (hp : p ≠ 0) (resp : PQResponse)
    (hok : PAGINATED_QUERY coll limit sort none none (some p) ordering q = .ok resp) :
    resp.nextPage = (if p * (limit : Int) ≤ (countDocs coll q : Int) then some (p + 1) else none) ∧
    resp.prevPage = (if p > 1 then some (p - 1) else none) ∧
    resp.total = countDocs coll q ∧
    resp.method = "offset" := by
  unfold PAGINATED_QUERY at hok
  have ht : intTruthy (some p) = true := by simp [intTruthy, hp]
  rw [ht] at hok
  simp only [Bool.true_eq_false, if_false, Option.getD_some] at hok
  by_cases hlt : p < 1
  · rw [if_pos hlt] at hok
    simp at hok
  · rw [if_neg hlt] at hok
    obtain ⟨na, nb, hresp⟩ := finishPQ_ok_shape _ _ _ _ _ _ _ _ _ _ _ hok
    subst hresp
    refine ⟨?_, ?_, ?_, ?_⟩ <;> simp [assembleResponse]

/-- Witness for C6 on the two-document collection at page one. -/
theorem c6_offset_pages_amended_witness :
    (PAGINATED_QUERY c6coll 2 "_id" none none (some 1) (-1) qAll).map (fun r => r.nextPage)
      = .ok (some 2) := by
  have hok : PAGINATED_QUERY c6coll 2 "_id" none none (some 1) (-1) qAll = .ok c6resp := rfl
  have h := c6_offset_pages_amended c6coll qAll 2 (-1) "_id" 1 (by decide) c6resp hok
  rw [hok]
  show Except.ok c6resp.nextPage = Except.ok (some 2)
  rw [h.1]
  rfl

/-- Claim C7 counterexample: a call supplying both tokens succeeds instead of
failing, and returns the page the after token alone determines. -/
theorem c7_counterexample :
    (PAGINATED_QUERY c6coll 1 "_id" (some ("_" ++ oidStr 2)) (some ("_" ++ oidStr 1))
        none (-1) qAll).isOk = true ∧
    (PAGINATED_QUERY c6coll 1 "_id" (some ("_" ++ oidStr 2)) (some ("_" ++ oidStr 1))
        none (-1) qAll).map (fun r => r.data) =
      (PAGINATED_QUERY c6coll 1 "_id" (some ("_" ++ oidStr 2)) none none (-1) qAll).map
        (fun r => r.data) := ⟨rfl, rfl⟩

/-- Claim C7 amended: no error is raised when both tokens are supplied; the
after token alone determines the composed range predicate, the before
token being silently ignored by the composition, the page query and the
count query; a call supplying at most one token is determined by that
token. -/
theorem c7_after_precedence_amended (q : Filter) (key : String) (a : String)
    (ha : a ≠ "") (b : Option String) (coll : List Doc) (limit : Nat) (dir : Int) :
    composeLimitQuery q key (some a) b = composeLimitQuery q key (some a) none ∧
    getPageQuery coll q limit key dir (some a) b = getPageQuery coll q limit key dir (some a) none ∧
    getCountQuery coll q limit key (some a) b = getCountQuery coll q limit key (some a) none := by
  have ht : strTruthy (some a) = true := by
    simp only [strTruthy, Bool.not_eq_true']
    rcases he : a.isEmpty with _ | _
    · rfl
    · exact absurd ((String.isEmpty_iff a).mp he) ha
  have hc : composeLimitQuery q key (some a) b = composeLimitQuery q key (some a) none := by
    unfold composeLimitQuery
    rw [ht]
    simp only [Bool.true_or, if_true]
  refine ⟨hc, ?_, ?_⟩
  · unfold getPageQuery
    rw [hc]
  · unfold getCountQuery
    rw [hc]

/-- Witness for C7 at a concrete cursor token pair. -/
theorem c7_after_precedence_amended_witness :
    composeLimitQuery qAll "_id" (some ("_" ++ oidStr 2)) (some ("_" ++ oidStr 1)) =
      composeLimitQuery qAll "_id" (some ("_" ++ oidStr 2)) none := by
  exact (c7_after_precedence_amended qAll "_id" ("_" ++ oidStr 2) (by decide)
    (some ("_" ++ oidStr 1)) c6coll 1 (-1)).1

/-- Claim C8 counterexample: the supplied page value zero, which is strictly
below one, neither fails nor selects offset mode: it is falsy, so the
call runs in cursor mode and succeeds. -/
theorem c8_counterexample :
    (PAGINATED_QUERY c6coll 2 "_id" none none (some 0) (-1) qAll).map (fun r => r.method)
      = .ok "cursor" ∧
    (PAGINATED_QUERY c6coll 2 "_id" none none (some 0) (-1) qAll).isOk = true := ⟨rfl, rfl⟩

theorem assembleResponse_cursor_page_irrelevant (method : String)
    (hm : method = "cursor" ∨ method = "time") (total limit : Nat) (p₁ p₂ : Option Int)
    (results : List Doc) (na nb : Option String) :
    assembleResponse method total limit p₁ results na nb
      = assembleResponse method total limit p₂ results na nb := by
  rcases hm with hm | hm <;> subst hm <;> simp [assembleResponse]

theorem finishPQ_cursor_page_irrelevant (coll : List Doc) (q : Filter) (limit : Nat)
    (sort : String) (after before : Option String) (p₁ p₂ : Option Int) (method : String)
    (hm : method = "cursor" ∨ method = "time") (total : Nat) (results : List Doc) :
    finishPQ coll q limit sort after before p₁ method total results
      = finishPQ coll q limit sort after before p₂ method total results := by
  unfold finishPQ
  split
  · rw [assembleResponse_cursor_page_irrelevant method hm]
  · rcases hc : computeCandidates sort limit after before results with e | cand
    · rfl
    · simp only []
      rcases hl : applyLookahead coll q limit sort after before method cand with e | nab

      · rfl
      · simp only []
        rw [assembleResponse_cursor_page_irrelevant method hm]

/-- Claim C8 amended: a supplied page selects offset mode only when it is
truthy: a nonzero page strictly below one fails the page assertion
before any query runs, a page of at least one selects offset mode and
returns the sorted skip-and-take slice, and the supplied page zero is
falsy and is treated exactly as an absent page, selecting the cursor or
time strategy. -/
theorem c8_page_mode_amended (coll : List Doc) (q : Filter) (limit : Nat)
    (ordering : Int) (sort : String) (p : Int) :
    (p ≠ 0 → p < 1 → PAGINATED_QUERY coll limit sort none none (some p) ordering q
        = .error .pageAssert) ∧
    (1 ≤ p → ∀ resp, PAGINATED_QUERY coll limit sort none none (some p) ordering q = .ok resp →
        resp.method = "offset" ∧
        resp.data = (if limit ≠ 0 then
            ((mongoSort sort ordering (coll.filter q)).drop ((p - 1).toNat * limit)).take limit
          else mongoSort sort ordering (coll.filter q))) ∧
    PAGINATED_QUERY coll limit sort none none (some 0) ordering q
      = PAGINATED_QUERY coll limit sort none none none ordering q := by
  refine ⟨?_, ?_, ?_⟩
  · intro hp hlt
    unfold PAGINATED_QUERY
    have ht : intTruthy (some p) = true := by simp [intTruthy, hp]
    rw [ht]
    simp only [Bool.true_eq_false, if_false, Option.getD_some]
    rw [if_pos hlt]
  · intro hp resp hok
    unfold PAGINATED_QUERY at hok
    have ht : intTruthy (some p) = true := by
      simp only [intTruthy, bne_iff_ne, ne_eq]
      omega
    rw [ht] at hok
    simp only [Bool.true_eq_false, if_false, Option.getD_some] at hok
    rw [if_neg (by omega)] at hok
    obtain ⟨na, nb, hresp⟩ := finishPQ_ok_shape _ _ _ _ _ _ _ _ _ _ _ hok
    subst hresp
    refine ⟨by simp [assembleResponse], ?_⟩
    simp [assembleResponse, getOffsetQuery]
  · have h0 : intTruthy (some 0) = false := rfl
    have hn : intTruthy (none : Option Int) = false := rfl
    unfold PAGINATED_QUERY
    rw [h0, hn]
    rcases hres : getPageQuery coll q limit sort ordering none none with e | results
    · rfl
    · exact finishPQ_cursor_page_irrelevant coll q limit sort none none (some 0) none _
        (by by_cases hs : sort = "_id" <;> simp [hs]) _ results

/-- Witness for C8: the nonzero page values minus one and one on the
two-document collection. -/
theorem c8_page_mode_amended_witness :
    PAGINATED_QUERY c6coll 2 "_id" none none (some (-1)) (-1) qAll = .error .pageAssert ∧
    (PAGINATED_QUERY c6coll 2 "_id" none none (some 1) (-1) qAll).map (fun r => r.method)
      = .ok "offset" := by
  constructor
  · exact (c8_page_mode_amended c6coll qAll 2 (-1) "_id" (-1)).1 (by decide) (by decide)
  · have hok : PAGINATED_QUERY c6coll 2 "_id" none none (some 1) (-1) qAll = .ok c6resp := rfl
    have h := ((c8_page_mode_amended c6coll qAll 2 (-1) "_id" 1).2.1 (by decide) c6resp hok).1
    rw [hok]
    show Except.ok c6resp.method = Except.ok "offset"
    rw [h]

theorem getCount_pos_page_nonempty (coll : List Doc) (q : Filter) (limit : Nat)
    (sort : String) (ordering : Int) (after before : Option String) (c : Nat)
    (hcount : getCountQuery coll q limit sort after before = .ok c) (hc : c ≠ 0) :
    ∃ docs, getPageQuery coll q limit sort ordering after before = .ok docs ∧ docs ≠ [] := by
  unfold getCountQuery at hcount
  unfold getPageQuery
  by_cases hlim : limit ≠ 0
  · rw [if_pos hlim] at hcount
    rw [if_pos hlim]
    rcases hcomp : composeLimitQuery q sort after before with e | lq
    · rw [hcomp] at hcount; simp at hcount
    · simp only [hcomp] at hcount ⊢
      have hcval := Except.ok.inj hcount
      refine ⟨_, rfl, ?_⟩
      intro hnil
      have hlen := congrArg List.length hnil
      simp only [List.length_take, List.length_nil, mongoSort, length_sortLe] at hlen
      omega
  · rw [if_neg hlim] at hcount
    rw [if_neg hlim]
    have hcval := Except.ok.inj hcount
    unfold countDocs at hcval
    refine ⟨_, rfl, ?_⟩
    intro hnil
    have hlen := congrArg List.length hnil
    simp only [mongoSort, length_sortLe, List.length_nil] at hlen
    omega

theorem finishPQ_ok_cursors (coll : List Doc) (q : Filter) (limit : Nat) (sort : String)
    (after before : Option String) (page : Option Int) (method : String) (total : Nat)
    (results : List Doc) (resp : PQResponse)
    (h : finishPQ coll q limit sort after before page method total results = .ok resp) :
    (resp.afterCursor = none ∧ resp.beforeCursor = none) ∨
    ∃ cand nab, computeCandidates sort limit after before results = .ok cand ∧
        applyLookahead coll q limit sort after before method cand = .ok nab ∧
        resp.afterCursor = (if decide (method = "cursor") || decide (method = "time")
          then nab.1 else none) ∧
        resp.beforeCursor = (if decide (method = "cursor") || decide (method = "time")
          then nab.2 else none) := by
  unfold finishPQ at h
  split at h
  · left
    have := (Except.ok.inj h).symm
    subst this
    constructor <;> simp [assembleResponse, ite_self]
  · rcases hc : computeCandidates sort limit after before results with e | cand
    · rw [hc] at h; simp at h
    · rw [hc] at h
      rcases hl : applyLookahead coll q limit sort after before method cand with e | nab
      · simp only [hl] at h; simp at h
      · simp only [hl] at h
        right
        refine ⟨cand, nab, rfl, hl, ?_, ?_⟩
        · have := (Except.ok.inj h).symm
          subst this
          simp [assembleResponse]
        · have := (Except.ok.inj h).symm
          subst this
          simp [assembleResponse]

theorem applyLookahead_after_spec (coll : List Doc) (q : Filter) (limit : Nat)
    (sort : String) (a : String) (cand nab : Option String × Option String)
    (method : String) (hm : method = "cursor" ∨ method = "time")
    (ha : strTruthy (some a) = true)
    (hl : applyLookahead coll q limit sort (some a) none method cand = .ok nab) :
    ∀ tok, nab.1 = some tok →
      ∃ c, getCountQuery coll q limit sort (some tok) none = .ok c ∧ c ≠ 0 := by
  intro tok htok
  have hmb : (decide (method = "cursor") || decide (method = "time")) = true := by
    rcases hm with hm | hm <;> subst hm <;> rfl
  unfold applyLookahead at hl
  rw [hmb] at hl
  simp only [if_true] at hl
  rw [show strTruthy (none : Option String) = false from rfl] at hl
  simp only [Bool.false_eq_true, if_false] at hl
  rw [ha] at hl
  simp only [if_true] at hl
  rcases hcount : getCountQuery coll q limit sort cand.1 none with e | c
  · rw [hcount] at hl; simp at hl
  · rw [hcount] at hl
    have hnab := (Except.ok.inj hl).symm
    subst hnab
    simp only at htok
    by_cases hc0 : c = 0
    · rw [hc0] at htok; simp at htok
    · rw [if_neg hc0] at htok
      rw [htok] at hcount
      exact ⟨c, hcount, hc0⟩

theorem applyLookahead_before_spec (coll : List Doc) (q : Filter) (limit : Nat)
    (sort : String) (b : String) (cand nab : Option String × Option String)
    (method : String) (hm : method = "cursor" ∨ method = "time")
    (hb : strTruthy (some b) = true)
    (hl : applyLookahead coll q limit sort none (some b) method cand = .ok nab) :
    ∀ tok, nab.2 = some tok →
      ∃ c, getCountQuery coll q limit sort none (some tok) = .ok c ∧ c ≠ 0 := by
  intro tok htok
  have hmb : (decide (method = "cursor") || decide (method = "time")) = true := by
    rcases hm with hm | hm <;> subst hm <;> rfl
  unfold applyLookahead at hl
  rw [hmb] at hl
  simp only [if_true] at hl
  rw [hb] at hl
  simp only [if_true] at hl
  rcases hcount : getCountQuery coll q limit sort none cand.2 with e | c
  · rw [hcount] at hl; simp at hl
  · rw [hcount] at hl
    have hnab := (Except.ok.inj hl).symm
    subst hnab
    simp only at htok
    by_cases hc0 : c = 0
    · rw [hc0] at htok; simp at htok
    · rw [if_neg hc0] at htok
      rw [htok] at hcount
      exact ⟨c, hcount, hc0⟩

/-- Claim C5 amended: lookahead verification runs only when the caller
supplied a truthy token, and verifies only the matching candidate: a
call made with an after token never advertises an after cursor whose
redemption with the same filter, sort key and limit is empty, and a
call made with a before token never advertises a before cursor whose
redemption is empty.  A first-page call, made with neither token,
performs no lookahead and can advertise a dead after token, as the
counterexample shows. -/
theorem c5_lookahead_amended (coll : List Doc) (q : Filter) (limit : Nat)
    (sort : String) (ordering : Int) :
    (∀ a : String, a ≠ "" → ∀ resp : PQResponse,
        PAGINATED_QUERY coll limit sort (some a) none none ordering q = .ok resp →
        ∀ tok, resp.afterCursor = some tok →
          ∃ docs, getPageQuery coll q limit sort ordering (some tok) none = .ok docs ∧
            docs ≠ []) ∧
    (∀ b : String, b ≠ "" → ∀ resp : PQResponse,
        PAGINATED_QUERY coll limit sort none (some b) none ordering q = .ok resp →
        ∀ tok, resp.beforeCursor = some tok →
          ∃ docs, getPageQuery coll q limit sort ordering none (some tok) = .ok docs ∧
            docs ≠ []) := by
  have hmeth : (if sort = "_id" then "cursor" else "time") = "cursor" ∨
      (if sort = "_id" then "cursor" else "time") = "time" := by
    by_cases hs : sort = "_id" <;> simp [hs]
  have hmb : (decide ((if sort = "_id" then "cursor" else "time") = "cursor")
      || decide ((if sort = "_id" then "cursor" else "time") = "time")) = true := by
    rcases hmeth with hm | hm <;> rw [hm] <;> rfl
  constructor
  · intro a ha resp hok tok hadv
    have hat : strTruthy (some a) = true := by
      simp only [strTruthy, Bool.not_eq_true']
      rcases he : a.isEmpty with _ | _
      · rfl
      · exact absurd ((String.isEmpty_iff a).mp he) ha
    unfold PAGINATED_QUERY at hok
    simp only [intTruthy, Bool.false_eq_true, if_false, reduceIte] at hok
    rcases hpage : getPageQuery coll q limit sort ordering (some a) none with e | results
    · rw [hpage] at hok; simp at hok
    · rw [hpage] at hok
      simp only at hok
      rcases finishPQ_ok_cursors _ _ _ _ _ _ _ _ _ _ _ hok with ⟨hnone, _⟩ | ⟨cand, nab, hc, hl, hac, hbc⟩
      · rw [hnone] at hadv; simp at hadv
      · rw [hac, hmb, if_pos rfl] at hadv
        obtain ⟨c, hcount, hc0⟩ := applyLookahead_after_spec _ _ _ _ _ _ _ _ hmeth hat hl tok hadv
        exact getCount_pos_page_nonempty coll q limit sort ordering (some tok) none c hcount hc0
  · intro b hb resp hok tok hadv
    have hbt : strTruthy (some b) = true := by
      simp only [strTruthy, Bool.not_eq_true']
      rcases he : b.isEmpty with _ | _
      · rfl
      · exact absurd ((String.isEmpty_iff b).mp he) hb
    unfold PAGINATED_QUERY at hok
    simp only [intTruthy, Bool.false_eq_true, if_false, reduceIte] at hok
    rcases hpage : getPageQuery coll q limit sort ordering none (some b) with e | results
    · rw [hpage] at hok; simp at hok
    · rw [hpage] at hok
      simp only at hok
      rcases finishPQ_ok_cursors _ _ _ _ _ _ _ _ _ _ _ hok with ⟨_, hnone⟩ | ⟨cand, nab, hc, hl, hac, hbc⟩
      · rw [hnone] at hadv; simp at hadv
      · rw [hbc, hmb, if_pos rfl] at hadv
        obtain ⟨c, hcount, hc0⟩ := applyLookahead_before_spec _ _ _ _ _ _ _ _ hmeth hbt hl tok hadv
        exact getCount_pos_page_nonempty coll q limit sort ordering none (some tok) c hcount hc0

/-- Witness for C5: resuming after identifier three with limit one
advertises the after cursor at identifier two, whose redemption is the
nonempty page holding identifier one. -/
theorem c5_lookahead_amended_witness :
    ∃ docs, getPageQuery c5wcoll qAll 1 "_id" (-1) (some ("_" ++ oidStr 2)) none = .ok docs ∧
      docs ≠ [] := by
  have hok : PAGINATED_QUERY c5wcoll 1 "_id" (some ("_" ++ oidStr 3)) none none (-1) qAll
      = .ok c5wresp := rfl
  exact (c5_lookahead_amended c5wcoll qAll 1 "_id" (-1)).1 ("_" ++ oidStr 3) (by decide)
    c5wresp hok ("_" ++ oidStr 2) rfl

/-- Claim C5 counterexample: the first page of a one-document collection with
limit one computes a candidate after token, but no lookahead count runs
because the caller supplied neither token: the response advertises the
token and a non-null next link, although redeeming the token returns
zero results. -/
theorem c5_counterexample :
    (PAGINATED_QUERY c5coll 1 "_id" none none none (-1) qAll).map
        (fun r => (r.afterCursor, r.hasNext)) = .ok (some ("_" ++ oidStr 1), true) ∧
    getCountQuery c5coll qAll 1 "_id" (some ("_" ++ oidStr 1)) none = .ok 0 ∧
    getPageQuery c5coll qAll 1 "_id" (-1) (some ("_" ++ oidStr 1)) none = .ok [] :=
  ⟨rfl, rfl, rfl⟩

theorem bsonLe_int_iff (m n : Int) : bsonLe (.vInt m) (.vInt n) = true ↔ m ≤ n := by
  show (bsonLt (.vInt m) (.vInt n) || (BVal.vInt m == BVal.vInt n)) = true ↔ m ≤ n
  have h1 : bsonLt (.vInt m) (.vInt n) = decide (m < n) := by
    simp [bsonLt, BVal.rank, BVal.ltSame]
  rw [h1]
  simp only [Bool.or_eq_true, decide_eq_true_eq, beq_iff_eq, BVal.vInt.injEq]
  omega

theorem bsonLe_str_iff (s t : String) : bsonLe (.vStr s) (.vStr t) = true ↔ s ≤ t := by
  show (bsonLt (.vStr s) (.vStr t) || (BVal.vStr s == BVal.vStr t)) = true ↔ s ≤ t
  have h1 : bsonLt (.vStr s) (.vStr t) = decide (s < t) := by
    simp [bsonLt, BVal.rank, BVal.ltSame]
  rw [h1]
  simp only [Bool.or_eq_true, decide_eq_true_eq, beq_iff_eq, BVal.vStr.injEq]
  exact (le_iff_lt_or_eq (a := s) (b := t)).symm

theorem bsonLe_oid_iff (m n : Nat) : bsonLe (.vOid m) (.vOid n) = true ↔ m ≤ n := by
  show (bsonLt (.vOid m) (.vOid n) || (BVal.vOid m == BVal.vOid n)) = true ↔ m ≤ n
  have h1 : bsonLt (.vOid m) (.vOid n) = decide (m < n) := by
    simp [bsonLt, BVal.rank, BVal.ltSame]
  rw [h1]
  simp only [Bool.or_eq_true, decide_eq_true_eq, beq_iff_eq, BVal.vOid.injEq]
  omega

theorem bsonLe_date_iff (m n : Nat) : bsonLe (.vDate m) (.vDate n) = true ↔ m ≤ n := by
  show (bsonLt (.vDate m) (.vDate n) || (BVal.vDate m == BVal.vDate n)) = true ↔ m ≤ n
  have h1 : bsonLt (.vDate m) (.vDate n) = decide (m < n) := by
    simp [bsonLt, BVal.rank, BVal.ltSame]
  rw [h1]
  simp only [Bool.or_eq_true, decide_eq_true_eq, beq_iff_eq, BVal.vDate.injEq]
  omega

theorem dvalLeB_total_of_comp (a b : DVal) (h : dvalComp a b = true) :
    dvalLeB a b = true ∨ dvalLeB b a = true := by
  cases a with
  | atom x =>
      cases b with
      | atom y =>
          simp only [dvalComp] at h
          simp only [dvalLeB]
          cases x <;> cases y <;> simp [bvalComp] at h
          · simp only [bsonLe_int_iff]; omega
          · simp only [bsonLe_str_iff]; exact le_total _ _
          · simp only [bsonLe_oid_iff]; omega
          · simp only [bsonLe_date_iff]; omega
      | dnil => simp [dvalComp] at h
      | dcons k v r => simp [dvalComp] at h
      | anil => simp [dvalComp] at h
      | acons v r => simp [dvalComp] at h
  | dnil => simp [dvalComp] at h
  | dcons k v r => simp [dvalComp] at h
  | anil => simp [dvalComp] at h
  | acons v r => simp [dvalComp] at h

theorem dvalLeB_trans_of_comp (a b c : DVal) (hab : dvalComp a b = true)
    (hbc : dvalComp b c = true) (h1 : dvalLeB a b = true) (h2 : dvalLeB b c = true) :
    dvalLeB a c = true := by
  cases a with
  | atom x =>
      cases b with
      | atom y =>
          cases c with
          | atom z =>
              simp only [dvalComp] at hab hbc
              simp only [dvalLeB] at h1 h2 ⊢
              cases x <;> cases y <;> cases z <;> simp [bvalComp] at hab hbc
              · rw [bsonLe_int_iff] at h1 h2 ⊢; omega
              · rw [bsonLe_str_iff] at h1 h2 ⊢; exact le_trans h1 h2
              · rw [bsonLe_oid_iff] at h1 h2 ⊢; omega
              · rw [bsonLe_date_iff] at h1 h2 ⊢; omega
          | dnil => simp [dvalComp] at hbc
          | dcons k v r => simp [dvalComp] at hbc
          | anil => simp [dvalComp] at hbc
          | acons v r => simp [dvalComp] at hbc
      | dnil => simp [dvalComp] at hab
      | dcons k v r => simp [dvalComp] at hab
      | anil => simp [dvalComp] at hab
      | acons v r => simp [dvalComp] at hab
  | dnil => simp [dvalComp] at hab
  | dcons k v r => simp [dvalComp] at hab
  | anil => simp [dvalComp] at hab
  | acons v r => simp [dvalComp] at hab

theorem dvalComp_of_int (a b : DVal) (ha : isIntAtom a = true) (hb : isIntAtom b = true) :
    dvalComp a b = true := by
  cases a with
  | atom x =>
      cases x <;> simp [isIntAtom] at ha
      cases b with
      | atom y =>
          cases y <;> simp [isIntAtom] at hb
          rfl
      | dnil => simp [isIntAtom] at hb
      | dcons k v r => simp [isIntAtom] at hb
      | anil => simp [isIntAtom] at hb
      | acons v r => simp [isIntAtom] at hb
  | dnil => simp [isIntAtom] at ha
  | dcons k v r => simp [isIntAtom] at ha
  | anil => simp [isIntAtom] at ha
  | acons v r => simp [isIntAtom] at ha

theorem dictGet?_isSome_of_hasKey (f : String) :
    ∀ c : DVal, dictHasKey c f = true → ∃ v, dictGet? c f = some v := by
  intro c
  induction c with
  | atom x => intro h; simp [dictHasKey] at h
  | dnil => intro h; simp [dictHasKey] at h
  | dcons k v r ihv ihr =>
      intro h
      simp only [dictHasKey, Bool.or_eq_true, decide_eq_true_eq] at h
      by_cases hk : k = f
      · exact ⟨v, by simp [dictGet?, hk]⟩
      · rcases h with h | h
        · exact absurd h hk
        · obtain ⟨w, hw⟩ := ihr h
          exact ⟨w, by simp [dictGet?, hk, hw]⟩
  | anil => intro h; simp [dictHasKey] at h
  | acons v r ihv ihr => intro h; simp [dictHasKey] at h

theorem dictGet?_none_of_not_hasKey (f : String) :
    ∀ c : DVal, dictHasKey c f = false → dictGet? c f = none := by
  intro c
  induction c with
  | atom x => intro h; rfl
  | dnil => intro h; rfl
  | dcons k v r ihv ihr =>
      intro h
      simp only [dictHasKey, Bool.or_eq_false_iff, decide_eq_false_iff_not] at h
      simp [dictGet?, h.1, ihr h.2]
  | anil => intro h; rfl
  | acons v r ihv ihr => intro h; rfl

theorem pairwise_pySortedDVal (rev : Bool) (vals out : List DVal)
    (h : pySortedDVal rev vals = some out) :
    out.Pairwise (fun a b => (if rev then dvalLeB b a else dvalLeB a b) = true) := by
  unfold pySortedDVal at h
  split at h
  case isTrue hcomp =>
    have hout := (Option.some.inj h).symm
    subst hout
    have hcompall : ∀ x ∈ vals, ∀ y ∈ vals, dvalComp x y = true := by
      intro x hx y hy
      have hx2 := List.all_eq_true.mp hcomp x hx
      exact List.all_eq_true.mp hx2 y hy
    refine pairwise_sortLe _ (fun v => v ∈ vals) ?_ ?_ vals (fun x hx => hx)
    · intro x y hx hy
      by_cases hrev : rev
      · subst hrev
        simp only [if_true]
        exact (dvalLeB_total_of_comp y x (hcompall y hy x hx))
      · simp only [hrev, Bool.false_eq_true, if_false]
        exact dvalLeB_total_of_comp x y (hcompall x hx y hy)
    · intro x y z hx hy hz h1 h2
      by_cases hrev : rev
      · subst hrev
        simp only [if_true] at h1 h2 ⊢
        exact dvalLeB_trans_of_comp z y x (hcompall z hz y hy) (hcompall y hy x hx) h2 h1
      · simp only [hrev, Bool.false_eq_true, if_false] at h1 h2 ⊢
        exact dvalLeB_trans_of_comp x y z (hcompall x hx y hy) (hcompall y hy z hz) h1 h2
  case isFalse => simp at h

theorem perm_pySortedDVal (rev : Bool) (vals out : List DVal)
    (h : pySortedDVal rev vals = some out) : List.Perm out vals := by
  unfold pySortedDVal at h
  split at h
  · have hout := (Option.some.inj h).symm
    subst hout
    exact perm_sortLe _ vals
  · simp at h

theorem nodup_pySortedDVal (rev : Bool) (vals out : List DVal)
    (h : pySortedDVal rev vals = some out) (hnd : vals.Nodup) : out.Nodup := by
  exact (perm_pySortedDVal rev vals out h).symm.nodup hnd

theorem addToSet_nodup (acc : List DVal) (v : DVal) (out : List DVal)
    (h : addToSet acc v = some out) (hnd : acc.Nodup) : out.Nodup := by
  unfold addToSet at h
  split at h
  · have hout := (Option.some.inj h).symm
    subst hout
    split
    · exact hnd
    · rename_i hmem
      refine List.Nodup.append hnd (List.nodup_singleton v) ?_
      intro x hx hxv
      simp only [List.mem_singleton] at hxv
      subst hxv
      exact hmem hx
  · simp at h

theorem foldlM_addToSet_nodup :
    ∀ (vs acc out : List DVal), acc.Nodup → vs.foldlM addToSet acc = some out → out.Nodup := by
  intro vs
  induction vs with
  | nil =>
      intro acc out hnd h
      simp only [List.foldlM_nil, Option.pure_def, Option.some.injEq] at h
      subst h
      exact hnd
  | cons v rest ih =>
      intro acc out hnd h
      simp only [List.foldlM_cons] at h
      rcases ha : addToSet acc v with _ | acc2
      · rw [ha] at h; simp at h
      · rw [ha] at h
        simp only [Option.bind_eq_bind, Option.some_bind] at h
        exact ih acc2 out (addToSet_nodup acc v acc2 ha hnd) h

theorem dotted_fold_nodup (fields : List String) :
    ∀ (docs : List DVal) (acc out : List DVal), acc.Nodup →
      docs.foldlM (fun acc item =>
          (walkDoc fields item).bind (fun vs => vs.foldlM addToSet acc)) acc = some out →
      out.Nodup := by
  intro docs
  induction docs with
  | nil =>
      intro acc out hnd h
      simp only [List.foldlM_nil, Option.pure_def, Option.some.injEq] at h
      subst h
      exact hnd
  | cons d rest ih =>
      intro acc out hnd h
      simp only [List.foldlM_cons] at h
      rcases hw : walkDoc fields d with _ | vs
      · rw [hw] at h; simp at h
      · rw [hw] at h
        simp only [Option.bind_eq_bind, Option.some_bind] at h
        rcases hf : vs.foldlM addToSet acc with _ | acc2
        · rw [hf] at h; simp at h
        · rw [hf] at h
          simp only [Option.some_bind] at h
          exact ih acc2 out (foldlM_addToSet_nodup vs acc acc2 hnd hf) h

theorem plainFold_dicts (field : String) :
    ∀ (docs : List DVal) (acc : List DVal),
      (∀ d ∈ docs, isDictNode d = true) →
      docs.foldlM (fun acc item => (pyInOp item field).bind (fun c =>
          if c then (pyGetItemStr item field).map (fun v => acc ++ [v]) else some acc)) acc
        = some (acc ++ docs.filterMap (fun d => dictGet? d field)) := by
  intro docs
  induction docs with
  | nil => intro acc _; simp
  | cons d rest ih =>
      intro acc hdocs
      have hd : isDictNode d = true := hdocs d (by simp)
      have hrest : ∀ x ∈ rest, isDictNode x = true := fun x hx => hdocs x (by simp [hx])
      simp only [List.foldlM_cons, List.filterMap_cons]
      cases d with
      | atom x => simp [isDictNode] at hd
      | anil => simp [isDictNode] at hd
      | acons v r => simp [isDictNode] at hd
      | dnil =>
          have hin : pyInOp DVal.dnil field = some false := rfl
          have hget : dictGet? DVal.dnil field = none := rfl
          rw [hin, hget]
          simp only [Option.bind_eq_bind, Option.some_bind, Bool.false_eq_true, if_false]
          exact ih acc hrest
      | dcons k v r =>
          have hin : pyInOp (DVal.dcons k v r) field
              = some (dictHasKey (DVal.dcons k v r) field) := rfl
          have hgetitem : pyGetItemStr (DVal.dcons k v r) field
              = dictGet? (DVal.dcons k v r) field := rfl
          rw [hin]
          by_cases hk : dictHasKey (DVal.dcons k v r) field = true
          · obtain ⟨w, hw⟩ := dictGet?_isSome_of_hasKey field _ hk
            rw [hk, hw]
            simp only [Option.bind_eq_bind, Option.some_bind, if_true, hgetitem, hw,
              Option.map_some', Option.some_bind]
            rw [ih (acc ++ [w]) hrest]
            simp [List.append_assoc]
          · have hk2 : dictHasKey (DVal.dcons k v r) field = false := by
              rcases hb : dictHasKey (DVal.dcons k v r) field with _ | _
              · rfl
              · exact absurd hb hk
            have hget := dictGet?_none_of_not_hasKey field _ hk2
            rw [hk2, hget]
            simp only [Option.bind_eq_bind, Option.some_bind, Bool.false_eq_true, if_false]
            exact ih acc hrest

/-- Claim C9 counterexample: on a sequence-backed result set, distinct over a
plain field returns the field values of all documents with duplicates
retained, not each value exactly once: two documents sharing the value
one produce a two-element result. -/
theorem c9_counterexample :
    seqDistinct c9docs "x" 1 = [.atom (.vInt 1), .atom (.vInt 1)] ∧
    ¬ (seqDistinct c9docs "x" 1).Nodup := by
  refine ⟨rfl, ?_⟩
  rw [show seqDistinct c9docs "x" 1 = [.atom (.vInt 1), .atom (.vInt 1)] from rfl]
  decide

/-- Claim C9 amended: the sequence-mode distinct sorts whatever it collects
ascending, or descending when the current sort direction is minus one,
and never raises; only the dotted-path walk deduplicates through a set,
while a plain field returns the multiset of field values of the
documents containing the field, duplicates retained; and the dotted
walk skips missing path components individually rather than skipping
the document, so a document lacking the first component of the path
a.b still contributes its top-level b value. -/
theorem c9_distinct_amended :
    (∀ (docs : List DVal) (field : String) (dir : Int),
        (seqDistinct docs field dir).Pairwise
          (fun a b => (if dir == -1 then dvalLeB b a else dvalLeB a b) = true)) ∧
    (∀ (docs : List DVal) (field : String) (dir : Int),
        pyContainsChar field '.' = true → (seqDistinct docs field dir).Nodup) ∧
    (∀ (docs : List DVal) (field : String) (dir : Int),
        pyContainsChar field '.' = false →
        (∀ d ∈ docs, isDictNode d = true) →
        (∀ d ∈ docs, ((dictGet? d field).map isIntAtom).getD true = true) →
        List.Perm (seqDistinct docs field dir)
          (docs.filterMap (fun d => dictGet? d field))) ∧
    seqDistinct [DVal.dcons "b" (.atom (.vInt 5)) .dnil] "a.b" 1 = [.atom (.vInt 5)] := by
  refine ⟨?_, ?_, ?_, rfl⟩
  · intro docs field dir
    simp only [seqDistinct]
    by_cases hdot : pyContainsChar field '.' = true
    · rw [if_pos hdot]
      rcases hf : docs.foldlM (fun acc item =>
          (walkDoc (pySplit field '.') item).bind (fun vs => vs.foldlM addToSet acc)) []
        with _ | vals
      · simp only [Option.none_bind, Option.getD_none]
        exact List.Pairwise.nil
      · simp only [Option.some_bind]
        rcases hs : pySortedDVal (dir == -1) vals with _ | out
        · simp only [Option.getD_none]
          exact List.Pairwise.nil
        · simp only [Option.getD_some]
          exact pairwise_pySortedDVal _ _ _ hs
    · rw [if_neg hdot]
      rcases hf : docs.foldlM (fun acc item => (pyInOp item field).bind (fun c =>
          if c then (pyGetItemStr item field).map (fun v => acc ++ [v]) else some acc)) []
        with _ | vals
      · simp only [Option.none_bind, Option.getD_none]
        exact List.Pairwise.nil
      · simp only [Option.some_bind]
        rcases hs : pySortedDVal (dir == -1) vals with _ | out
        · simp only [Option.getD_none]
          exact List.Pairwise.nil
        · simp only [Option.getD_some]
          exact pairwise_pySortedDVal _ _ _ hs
  · intro docs field dir hdot
    simp only [seqDistinct]
    rw [if_pos hdot]
    rcases hf : docs.foldlM (fun acc item =>
        (walkDoc (pySplit field '.') item).bind (fun vs => vs.foldlM addToSet acc)) []
      with _ | vals
    · simp only [Option.none_bind, Option.getD_none]
      exact List.nodup_nil
    · simp only [Option.some_bind]
      have hvalsnd : vals.Nodup :=
        dotted_fold_nodup (pySplit field '.') docs [] vals List.nodup_nil hf
      rcases hs : pySortedDVal (dir == -1) vals with _ | out
      · simp only [Option.getD_none]
        exact List.nodup_nil
      · simp only [Option.getD_some]
        exact nodup_pySortedDVal _ _ _ hs hvalsnd
  · intro docs field dir hdot hdict hint
    simp only [seqDistinct]
    rw [if_neg (by rw [hdot]; simp)]
    rw [plainFold_dicts field docs [] hdict]
    simp only [List.nil_append, Option.some_bind]
    have hcomp : (docs.filterMap (fun d => dictGet? d field)).all
        (fun a => (docs.filterMap (fun d => dictGet? d field)).all (fun b => dvalComp a b))
          = true := by
      rw [List.all_eq_true]
      intro a hamem
      rw [List.all_eq_true]
      intro b hbmem
      obtain ⟨da, hda, hga⟩ := List.mem_filterMap.mp hamem
      obtain ⟨db, hdb, hgb⟩ := List.mem_filterMap.mp hbmem
      have hia := hint da hda
      rw [hga] at hia
      simp only [Option.map_some', Option.getD_some] at hia
      have hib := hint db hdb
      rw [hgb] at hib
      simp only [Option.map_some', Option.getD_some] at hib
      exact dvalComp_of_int a b hia hib
    unfold pySortedDVal
    rw [if_pos hcomp]
    simp only [Option.getD_some]
    exact perm_sortLe _ _

/-- Witness for C9 at two integer-valued documents sharing the plain
field x: the result is a permutation of both occurrences. -/
theorem c9_distinct_amended_witness :
    List.Perm (seqDistinct [DVal.dcons "x" (.atom (.vInt 2)) .dnil,
                            DVal.dcons "x" (.atom (.vInt 1)) .dnil] "x" 1)
      [.atom (.vInt 2), .atom (.vInt 1)] := by
  exact c9_distinct_amended.2.2.1
    [DVal.dcons "x" (.atom (.vInt 2)) .dnil, DVal.dcons "x" (.atom (.vInt 1)) .dnil]
    "x" 1 (by decide) (by decide) (by decide)

end Cervmongo
